import Mathlib

/-!
Verification development for the document-tree core of `zim/formats/__init__.py`
(zim-desktop-wiki).  The Python code is shallowly embedded: Python strings are
lists of characters (`PyStr`), `None`-able strings are `Option PyStr`, element
trees mirror `xml.etree` elements, mutation is explicit state passing, and
Python exceptions (`AssertionError`, `IndexError`, ...) are `Except` errors.
All definitions are executable and kernel-reducible so that concrete runs can
be settled by `decide` / `rfl`.
-/

set_option maxHeartbeats 1600000

/-! ## Python string primitives -/

/-- Python strings, modelled as lists of characters. -/
abbrev PyStr := List Char

/-- Characters of Python's `str.isspace` (ASCII range). -/
def pyIsSpaceChar (c : Char) : Bool :=
  c = ' ' || c = '\t' || c = '\n' || c = Char.ofNat 13 ||
  c = Char.ofNat 11 || c = Char.ofNat 12

/-- Python `s.isspace()`: nonempty and all whitespace. -/
def pyIsSpace (s : PyStr) : Bool :=
  !s.isEmpty && s.all pyIsSpaceChar

/-- Truthiness of an optional Python string (`None` and `''` are falsy). -/
def truthy : Option PyStr → Bool
  | none => false
  | some s => !s.isEmpty

/-- Python `(o or '') + t` used when appending to a maybe-absent string. -/
def orCat (o : Option PyStr) (t : PyStr) : PyStr := o.getD [] ++ t

/-- Number of trailing `'\n'` characters (the `r'\n+\Z'` match length). -/
def trailNl (s : PyStr) : Nat := (s.reverse.takeWhile (fun c => c = '\n')).length

/-- Python `s.rstrip('\n')`. -/
def rstripNl (s : PyStr) : PyStr := (s.reverse.dropWhile (fun c => c = '\n')).reverse

/-- Python `s.strip('\n')`. -/
def stripNl (s : PyStr) : PyStr :=
  ((s.dropWhile (fun c => c = '\n')).reverse.dropWhile (fun c => c = '\n')).reverse

/-- Python `s.strip()` (whitespace strip, used by `int()`). -/
def stripWs (s : PyStr) : PyStr :=
  ((s.dropWhile pyIsSpaceChar).reverse.dropWhile pyIsSpaceChar).reverse

/-- A string of `n` newlines (`'\n' * n`). -/
def nlRep (n : Nat) : PyStr := List.replicate n '\n'

/-- Does the string start with `'\n'`? -/
def startsNl : PyStr → Bool
  | '\n' :: _ => true
  | _ => false

/-- Python `s.split('\n')`. -/
def splitNl : PyStr → List PyStr
  | [] => [[]]
  | '\n' :: rest => [] :: splitNl rest
  | c :: rest =>
    match splitNl rest with
    | [] => [[c]]
    | l :: ls => (c :: l) :: ls

/-- Python `''.join(parts)`. -/
def joinL (parts : List PyStr) : PyStr := parts.foldr (fun a b => a ++ b) []

/-- Decimal digits of a nonempty digit string, else `none`. -/
def digitsToNat : PyStr → Option Nat
  | [] => none
  | ds =>
    if ds.all (fun c => c.isDigit) then
      some (ds.foldl (fun n c => n * 10 + (c.toNat - 48)) 0)
    else none

/-- Python 2 `int(s)` on (ASCII) strings: optional surrounding whitespace,
optional sign, a nonempty run of digits; anything else raises `ValueError`
(modelled as `none`). -/
def pyInt (s : PyStr) : Option Int :=
  match stripWs s with
  | '+' :: ds => (digitsToNat ds).map Int.ofNat
  | '-' :: ds => (digitsToNat ds).map (fun n => -(n : Int))
  | ds => (digitsToNat ds).map Int.ofNat

/-- Python `str(i)` for an integer. -/
def pyIntStr (i : Int) : PyStr := (toString i).data

/-- Lift a Lean string literal to a `PyStr`. -/
def pys (s : String) : PyStr := s.data

/-! ## Attribute values and elements

`xml.etree` element attributes in this code hold either Python ints (heading
levels written by the builders) or strings.  Keys are plain strings. -/

/-- An attribute value: Python int or string. -/
inductive AVal where
  | i (n : Int)
  | s (v : PyStr)
deriving DecidableEq, Repr

/-- Python `int(v)` on an attribute value. -/
def AVal.toInt : AVal → Option Int
  | .i n => some n
  | .s v => pyInt v

/-- Python `str(v)` on an attribute value. -/
def AVal.toStr : AVal → PyStr
  | .i n => pyIntStr n
  | .s v => v

/-- Attribute dictionaries, as insertion-ordered association lists. -/
abbrev Attrib := List (String × AVal)

/-- Python dict lookup `a[k]`. -/
def dictGet (a : Attrib) (k : String) : Option AVal := (a.find? (fun p => p.1 = k)).map (·.2)

/-- Python dict assignment `a[k] = v` (replace in place, else append). -/
def dictSet (a : Attrib) (k : String) (v : AVal) : Attrib :=
  if (a.find? (fun p => p.1 = k)).isSome then
    a.map (fun p => if p.1 = k then (k, v) else p)
  else a ++ [(k, v)]

/-! `xml.etree` elements: tag, attributes, text, tail, children.
(`ElemList` is the children list; a mutual inductive keeps structural
recursion and decidable equality available.) -/
mutual
inductive Elem where
  | mk (tag : String) (attrib : Attrib) (text tl : Option PyStr) (children : ElemList)
deriving DecidableEq, Repr
inductive ElemList where
  | nil
  | cons (e : Elem) (es : ElemList)
deriving DecidableEq, Repr
end

def Elem.tag : Elem → String
  | .mk t _ _ _ _ => t

def Elem.attrib : Elem → Attrib
  | .mk _ a _ _ _ => a

def Elem.text : Elem → Option PyStr
  | .mk _ _ x _ _ => x

def Elem.tl : Elem → Option PyStr
  | .mk _ _ _ l _ => l

def Elem.childrenL : Elem → ElemList
  | .mk _ _ _ _ c => c

def Elem.withText (e : Elem) (x : Option PyStr) : Elem :=
  match e with | .mk t a _ l c => .mk t a x l c

def Elem.withTl (e : Elem) (l : Option PyStr) : Elem :=
  match e with | .mk t a x _ c => .mk t a x l c

def Elem.withChildren (e : Elem) (c : ElemList) : Elem :=
  match e with | .mk t a x l _ => .mk t a x l c

def Elem.withAttrib (e : Elem) (a : Attrib) : Elem :=
  match e with | .mk t _ x l c => .mk t a x l c

def ElemList.append (es : ElemList) (e : Elem) : ElemList :=
  match es with
  | .nil => .cons e .nil
  | .cons f fs => .cons f (fs.append e)

def Elem.appendChild (e : Elem) (c : Elem) : Elem :=
  e.withChildren (e.childrenL.append c)

/-- Last element of a children list, if any (`getchildren()[-1]`). -/
def ElemList.lastGet : ElemList → Option Elem
  | .nil => none
  | .cons e .nil => some e
  | .cons _ (.cons f fs) => ElemList.lastGet (.cons f fs)

/-- Replace the last element of a children list (mutation of `children[-1]`). -/
def ElemList.setLast (es : ElemList) (e : Elem) : ElemList :=
  match es with
  | .nil => .nil
  | .cons _ .nil => .cons e .nil
  | .cons f (.cons g gs) => .cons f (ElemList.setLast (.cons g gs) e)

def ElemList.isNil : ElemList → Bool
  | .nil => true
  | .cons _ _ => false

def ElemList.toList : ElemList → List Elem
  | .nil => []
  | .cons e es => e :: es.toList

def ElemList.ofList : List Elem → ElemList
  | [] => .nil
  | e :: es => .cons e (ElemList.ofList es)

def ElemList.firstGet : ElemList → Option Elem
  | .nil => none
  | .cons e _ => some e

/-- Drop the first element (`root.remove(children[0])` for a leading child). -/
def ElemList.dropFirst : ElemList → ElemList
  | .nil => .nil
  | .cons _ es => es

/-! Collectors over whole trees (document order, as `getiterator`). -/

mutual
def Elem.collectTag (t : String) : Elem → List Elem
  | .mk tg a x l c =>
    (if tg = t then [Elem.mk tg a x l c] else []) ++ ElemList.collectTag t c
def ElemList.collectTag (t : String) : ElemList → List Elem
  | .nil => []
  | .cons e es => Elem.collectTag t e ++ ElemList.collectTag t es
end

/-- Texts of all elements with the given tag, in document order. -/
def Elem.tagTexts (t : String) (e : Elem) : List (Option PyStr) :=
  (e.collectTag t).map Elem.text

/-! ## `increase_list_iter` -/

/-- Python 2 `string.letters` in the C locale. -/
def lettersPy : PyStr := pys "abcdefghijklmnopqrstuvwxyzABCDEFGHIJKLMNOPQRSTUVWXYZ"

/-- Python `hay.index(needle)`: index of the first occurrence of `needle` as a
substring of `hay` (`none` models `ValueError`). -/
def strIndex (hay needle : PyStr) : Option Nat :=
  match hay with
  | [] => if needle.isEmpty then some 0 else none
  | _ :: rest =>
    if needle.isPrefixOf hay then some 0
    else (strIndex rest needle).map (· + 1)

/-- `increase_list_iter(listiter)` from `zim/formats/__init__.py`:
`int()` succeeds → next number; else `string.letters.index` + 1, with
`IndexError` (running past `'Z'`) wrapping to `letters[0]`. -/
def increase_list_iter (listiter : PyStr) : Option PyStr :=
  match pyInt listiter with
  | some i => some (pyIntStr (i + 1))
  | none =>
    match strIndex lettersPy listiter with
    | none => none
    | some i =>
      match lettersPy.drop (i + 1) with
      | [] => some [lettersPy.headI]
      | c :: _ => some [c]

/-! ## `ParseTree.pop_heading` -/

/-- Result of `pop_heading`: Python returns a 2-tuple on most paths but falls
off the end (bare `None`) when the root has no children. -/
inductive PopRet where
  | pair (text : Option PyStr) (lvl : Option Int)
  | bareNone
deriving DecidableEq, Repr

/-- `ParseTree.pop_heading(level)`, acting on the root element.  Errors model
`KeyError` / `ValueError` on a malformed `level` attribute. -/
def pop_heading (level : Int) (root : Elem) : Except String (PopRet × Elem) := do
  if truthy root.text && !pyIsSpace (root.text.getD []) then
    return (.pair none none, root)
  match root.childrenL.firstGet with
  | some first =>
    if first.tag = "h" then
      match dictGet first.attrib "level" with
      | none => throw "KeyError: level"
      | some v =>
        match v.toInt with
        | none => throw "ValueError: invalid literal for int()"
        | some mylevel =>
          if level = -1 || mylevel ≤ level then
            let root := root.withChildren root.childrenL.dropFirst
            let root :=
              if truthy first.tl && !pyIsSpace (first.tl.getD []) then
                root.withText first.tl
              else root
            return (.pair first.text (some mylevel), root)
          else
            return (.pair none none, root)
    else
      return (.pair none none, root)
  | none => return (.bareNone, root)

/-! ## `ParseTree.cleanup_headings` -/

/-- One step of the heading-level rewrite: pop stack entries whose original
level is `≥ level`, then assign `offset+1` (empty stack) or top-assigned `+ 1`,
clamped to `mx`.  The path stack is kept top-first. -/
def cleanupStep (offset mx : Int) (path : List (Int × Int)) (level : Int) :
    Int × List (Int × Int) :=
  let p := path.dropWhile (fun q => q.1 ≥ level)
  let newlevel := match p with | [] => offset + 1 | q :: _ => q.2 + 1
  let newlevel := if newlevel > mx then mx else newlevel
  (newlevel, (level, newlevel) :: p)

/-! `ParseTree.cleanup_headings(offset, max)`: walk every `'h'` element in
document order, rewriting its `level` attribute.  The traversal threads the
`path` stack exactly as the Python `for heading in self.getiterator('h')`
loop does. -/
mutual
def Elem.cleanupH (offset mx : Int) (path : List (Int × Int)) (e : Elem) :
    Except String (Elem × List (Int × Int)) :=
  match e with
  | .mk t a x l c =>
    if t = "h" then
      match dictGet a "level" with
      | none => throw "KeyError: level"
      | some v =>
        match v.toInt with
        | none => throw "ValueError: invalid literal for int()"
        | some level => do
          let (newlevel, path) := cleanupStep offset mx path level
          let a := dictSet a "level" (.i newlevel)
          let (c, path) ← ElemList.cleanupH offset mx path c
          return (.mk t a x l c, path)
    else do
      let (c, path) ← ElemList.cleanupH offset mx path c
      return (.mk t a x l c, path)
def ElemList.cleanupH (offset mx : Int) (path : List (Int × Int)) (es : ElemList) :
    Except String (ElemList × List (Int × Int)) :=
  match es with
  | .nil => return (.nil, path)
  | .cons e es => do
    let (e, path) ← Elem.cleanupH offset mx path e
    let (es, path) ← ElemList.cleanupH offset mx path es
    return (.cons e es, path)
end

/-- `cleanup_headings` on a whole tree. -/
def cleanup_headings (offset mx : Int) (root : Elem) : Except String Elem :=
  (Elem.cleanupH offset mx [] root).map (·.1)

mutual
/-- `int(level)` values of all `'h'` elements in document order (the default
is unused on `hWF` trees). -/
def Elem.hLvls : Elem → List Int
  | .mk t a _ _ c =>
    (if t = "h" then [((dictGet a "level").bind AVal.toInt).getD 0] else []) ++
    ElemList.hLvls c
def ElemList.hLvls : ElemList → List Int
  | .nil => []
  | .cons e es => Elem.hLvls e ++ ElemList.hLvls es
end

/-! ## `ParseTree.extend` (heap model)

`extend` mutates the receiving tree in place and moves child *references*;
object identity matters for the claim, so here elements live in an explicit
heap of nodes addressed by ids, with children stored as id lists. -/

structure HNode where
  tag : String
  attrib : Attrib
  text : Option PyStr
  tl : Option PyStr
  childIds : List Nat
deriving DecidableEq, Repr

/-- The Python object heap: node id → node (ids are list indices). -/
abbrev Heap := List HNode

def heapGet (h : Heap) (i : Nat) : Option HNode := h.get? i

def heapSet (h : Heap) (i : Nat) (n : HNode) : Heap := h.set i n

/-- `ParseTree.extend(self, tree)` with roots `tid` (receiver) and `uid`
(argument): merge `otherroot.text` into the receiver's last child's tail (or
the receiver's text), then append the *ids* of the other root's children to
the receiver's child list; returns `self` (= `tid`).  `none` models a broken
heap reference (cannot happen for well-formed trees). -/
def ptExtend (h : Heap) (tid uid : Nat) : Option (Heap × Nat) :=
  match heapGet h tid, heapGet h uid with
  | some my, some other =>
    let h1 :=
      if truthy other.text then
        match my.childIds.getLast? with
        | some lid =>
          match heapGet h lid with
          | some lastN =>
            heapSet h lid { lastN with tl := some (orCat lastN.tl (other.text.getD [])) }
          | none => h
        | none =>
          heapSet h tid { my with text := some (orCat my.text (other.text.getD [])) }
      else h
    match heapGet h1 tid, heapGet h1 uid with
    | some my1, some other1 =>
      some (heapSet h1 tid { my1 with childIds := my1.childIds ++ other1.childIds }, tid)
    | _, _ => none
  | _, _ => none

/-- `__add__ = extend`. -/
def ptAdd (h : Heap) (tid uid : Nat) : Option (Heap × Nat) := ptExtend h tid uid

/-! ## Visitor protocol and `ParseTree.visit`

A visitor's callbacks can raise `VisitorStop` / `VisitorSkip` (modelled as
result constructors) or any other exception (modelled as `err`). -/

inductive VRes (σ : Type) where
  | cont (st : σ)
  | skip (st : σ)
  | stop (st : σ)
  | err (msg : String) (st : σ)

structure PyVisitor (σ : Type) where
  start : String → Attrib → σ → VRes σ
  text : PyStr → σ → VRes σ
  endT : String → σ → VRes σ
  append : String → Attrib → Option PyStr → σ → VRes σ

/-- Outcome of `ParseTree._visit` on one node: normal return, a propagating
`VisitorStop`, or a propagating other exception. -/
inductive VStep (σ : Type) where
  | ok (st : σ)
  | stopped (st : σ)
  | failed (msg : String) (st : σ)

/-- Outcome of the children loop inside `_visit`: `skipInner` is a
`VisitorSkip` raised by a tail-`text` event, which the enclosing node's
`except VisitorSkip` catches. -/
inductive KRes (σ : Type) where
  | okK (st : σ)
  | skipInner (st : σ)
  | stopK (st : σ)
  | failedK (msg : String) (st : σ)

mutual
/-- `ParseTree._visit(visitor, node)`: childless nodes get one `append`
event; others get `start`, optional `text`, the children (each followed by
its tail as a `text` event), then `end`, all inside one
`except VisitorSkip: pass`. -/
def Elem.pvisit {σ : Type} (v : PyVisitor σ) (st : σ) : Elem → VStep σ
  | .mk t a x _ .nil =>
    match v.append t a x st with
    | .cont st => .ok st
    | .skip st => .ok st
    | .stop st => .stopped st
    | .err m st => .failed m st
  | .mk t a x _ (.cons e es) =>
    match v.start t a st with
    | .skip st => .ok st
    | .stop st => .stopped st
    | .err m st => .failed m st
    | .cont st =>
      match (if truthy x then v.text (x.getD []) st else .cont st) with
      | .skip st => .ok st
      | .stop st => .stopped st
      | .err m st => .failed m st
      | .cont st =>
        match ElemList.pvisitKids v st (.cons e es) with
        | .stopK st => .stopped st
        | .failedK m st => .failed m st
        | .skipInner st => .ok st
        | .okK st =>
          match v.endT t st with
          | .cont st => .ok st
          | .skip st => .ok st
          | .stop st => .stopped st
          | .err m st => .failed m st
def ElemList.pvisitKids {σ : Type} (v : PyVisitor σ) (st : σ) : ElemList → KRes σ
  | .nil => .okK st
  | .cons e es =>
    match Elem.pvisit v st e with
    | .stopped st => .stopK st
    | .failed m st => .failedK m st
    | .ok st =>
      match (if truthy e.tl then v.text (e.tl.getD []) st else .cont st) with
      | .skip st => .skipInner st
      | .stop st => .stopK st
      | .err m st => .failedK m st
      | .cont st => ElemList.pvisitKids v st es
end

/-- `ParseTree.visit(visitor)`: runs `_visit` on the root and catches
`VisitorStop` (clean early termination); other exceptions propagate. -/
def Elem.visit {σ : Type} (v : PyVisitor σ) (st : σ) (root : Elem) : Except String σ :=
  match root.pvisit v st with
  | .ok st => .ok st
  | .stopped st => .ok st
  | .failed m _ => .error m

/-! ## `DumperClass` -/

/-- A concrete dump format: the `TAGS` table, the `dump_<tag>` method table
(outer `none` = no such method, i.e. `AttributeError` → `'BUG: Unknown tag'`),
and `encode_text`. -/
structure DumpFmt where
  tags : String → Option (PyStr × PyStr)
  handler : String → Attrib → Option (List PyStr) → Option (Option (List PyStr))
  encode : PyStr → PyStr

/-- Dumper state: the `_context` stack of `(tag, attrib, strings)` frames,
innermost first (the root frame, Python's `self._text`, is last). -/
structure DState where
  ctx : List (Option String × Option Attrib × List PyStr)
deriving Repr

/-- Append output fragments to the current innermost frame
(`self._context[-1][-1].extend(strings)`). -/
def dPush (ss : List PyStr) (st : DState) : VRes DState :=
  match st.ctx with
  | (tg, a, strs) :: rest => .cont ⟨(tg, a, strs ++ ss) :: rest⟩
  | [] => .err "IndexError: context" st

def dumperStart (t : String) (a : Attrib) (st : DState) : VRes DState :=
  .cont ⟨(some t, some a, []) :: st.ctx⟩

def dumperText (fmt : DumpFmt) (tx : PyStr) (st : DState) : VRes DState :=
  dPush [fmt.encode tx] st

def dumperEnd (fmt : DumpFmt) (t : String) (st : DState) : VRes DState :=
  match st.ctx with
  | (tg, a, strs) :: rest =>
    if t = "" || tg ≠ some t then .err "Unmatched tag" st
    else
      match fmt.tags t with
      | some (s0, e0) =>
        if strs.isEmpty then .err "Can not append empty element" st
        else dPush (s0 :: (strs ++ [e0])) ⟨rest⟩
      | none =>
        if t = "zim-tree" then dPush strs ⟨rest⟩
        else
          match fmt.handler t (a.getD []) (some strs) with
          | none => .err "BUG: Unknown tag" st
          | some none => .cont ⟨rest⟩
          | some (some ss) => dPush ss ⟨rest⟩
  | [] => .err "IndexError: context" st

def dumperAppend (fmt : DumpFmt) (t : String) (a : Attrib) (x : Option PyStr)
    (st : DState) : VRes DState :=
  match fmt.tags t with
  | some (s0, e0) =>
    match x with
    | none => .err "Can not append empty element" st
    | some tx => dPush [s0, fmt.encode tx, e0] st
  | none =>
    if t = "zim-tree" then
      match x with
      | none => .cont st
      | some tx => dPush [fmt.encode tx] st
    else
      match fmt.handler t a (x.map (fun tx => [fmt.encode tx])) with
      | none => .err "BUG: Unknown tag" st
      | some none => .cont st
      | some (some ss) => dPush ss st

/-- The dumper as a visitor. -/
def dumperVisitor (fmt : DumpFmt) : PyVisitor DState :=
  { start := dumperStart
    text := dumperText fmt
    endT := dumperEnd fmt
    append := dumperAppend fmt }

/-- Python `u''.join(strings).splitlines(1)` (ASCII `'\n'` boundaries). -/
def splitLinesGo : PyStr → PyStr → List PyStr
  | [], [] => []
  | [], acc => [acc.reverse]
  | '\n' :: rest, acc => ('\n' :: acc).reverse :: splitLinesGo rest []
  | c :: rest, acc => splitLinesGo rest (c :: acc)

def getLinesOf (strs : List PyStr) : List PyStr := splitLinesGo (joinL strs) []

/-- `DumperClass.dump(tree)`: reset state, visit, assert the context stack is
back to the single root frame, join and split the output. -/
def dumperDump (fmt : DumpFmt) (root : Elem) : Except String (List PyStr) := do
  let st0 : DState := ⟨[(none, none, [])]⟩
  let st ← Elem.visit (dumperVisitor fmt) st0 root
  match st.ctx with
  | [(_, _, strs)] => return getLinesOf strs
  | _ => throw "Unclosed tags on tree"

/-- A dumper subclass whose `start`/`append` first count nodes and raise
`VisitorStop` on reaching node number `n`, before doing the dumper's work. -/
def stopAtVisitor (fmt : DumpFmt) (n : Nat) : PyVisitor (Nat × DState) :=
  { start := fun t a (c, st) =>
      if c + 1 = n then .stop (c + 1, st)
      else
        match dumperStart t a st with
        | .cont st => .cont (c + 1, st)
        | .skip st => .skip (c + 1, st)
        | .stop st => .stop (c + 1, st)
        | .err m st => .err m (c + 1, st)
    text := fun tx (c, st) =>
      match dumperText fmt tx st with
      | .cont st => .cont (c, st)
      | .skip st => .skip (c, st)
      | .stop st => .stop (c, st)
      | .err m st => .err m (c, st)
    endT := fun t (c, st) =>
      match dumperEnd fmt t st with
      | .cont st => .cont (c, st)
      | .skip st => .skip (c, st)
      | .stop st => .stop (c, st)
      | .err m st => .err m (c, st)
    append := fun t a x (c, st) =>
      if c + 1 = n then .stop (c + 1, st)
      else
        match dumperAppend fmt t a x st with
        | .cont st => .cont (c + 1, st)
        | .skip st => .skip (c + 1, st)
        | .stop st => .stop (c + 1, st)
        | .err m st => .err m (c + 1, st) }

/-- `dump` with the node-counting, stop-raising dumper. -/
def dumpStopAt (fmt : DumpFmt) (n : Nat) (root : Elem) : Except String (List PyStr) := do
  let st0 : Nat × DState := (0, ⟨[(none, none, [])]⟩)
  let st ← Elem.visit (stopAtVisitor fmt n) st0 root
  match st.2.ctx with
  | [(_, _, strs)] => return getLinesOf strs
  | _ => throw "Unclosed tags on tree"

/-- A plain read-only visitor that counts visited nodes and raises
`VisitorStop` at node `n` (used against `ParseTree.visit` alone). -/
def countStopVisitor (n : Nat) : PyVisitor Nat :=
  { start := fun _ _ c => if c + 1 = n then .stop (c + 1) else .cont (c + 1)
    text := fun _ c => .cont c
    endT := fun _ c => .cont c
    append := fun _ _ _ c => if c + 1 = n then .stop (c + 1) else .cont (c + 1) }

/-! ## `OldParseTreeBuilder`

The repairing tree builder.  Python keeps a stack of *live references* into
the tree being built and a `_last` pointer aliasing either the innermost open
element or the most recently closed one.  Here the stack is a zipper: each
stack entry holds its already-completed children, an element is attached to
its parent's child list when it is closed (Python attaches at `start`; the
only code that looks past the open element — `_append_to_previous` and the
purge in `end` — uses `getchildren()[:-1]` / `remove()`, which this zipper
realises directly).  `lastTop` says whether `_last` is the stack head (after
`start`, or after a purge that left the parent childless) or the head's last
child (after `end`); with an empty stack `_last` is the closed root. -/

structure BState where
  stack : List Elem
  root : Option Elem
  lastTop : Bool
  tailM : Bool
  dataB : List PyStr
  seenEol : Int
deriving DecidableEq, Repr

/-- The freshly constructed builder: `_seen_eol = 2` so the first top level
element needs no separating blank line. -/
def initB : BState := ⟨[], none, true, false, [], 2⟩

/-- The Python `_last` reference. -/
def BState.getLast (s : BState) : Option Elem :=
  match s.stack with
  | [] => s.root
  | top :: _ => if s.lastTop then some top else top.childrenL.lastGet

/-- Write through the `_last` reference. -/
def BState.setLast (s : BState) (e : Elem) : BState :=
  match s.stack with
  | [] => { s with root := some e }
  | top :: rest =>
    if s.lastTop then { s with stack := e :: rest }
    else { s with stack := top.withChildren (top.childrenL.setLast e) :: rest }

/-- `_append_to_previous(text)` relative to the given parent (= `_stack[-2]`;
the `[:-1]` in the source drops the open element, which the zipper's child
list already excludes): extend the last sibling's tail, else the parent's
text. -/
def appendToPreviousE (par : Elem) (txt : PyStr) : Elem :=
  match par.childrenL.lastGet with
  | some prev =>
    par.withChildren (par.childrenL.setLast (prev.withTl (some (orCat prev.tl txt))))
  | none => par.withText (some (orCat par.text txt))

/-- Tags that may not contain newlines (`_flush`'s split list). -/
def inlineNoNl : List String := ["h", "emphasis", "strong", "mark", "strike", "code"]

/-- The "Fix trailing newlines" step of `_flush`: recount `_seen_eol` on
nonempty text, then pad with newlines up to `need_eol`. -/
def fixTrailing (txt : PyStr) (seen need : Int) : PyStr × Int :=
  let s1 : Int := if txt.isEmpty then seen else (trailNl txt : Int)
  if need > s1 then (txt ++ nlRep (need - s1).toNat, need) else (txt, s1)

/-- The `for line in lines[:-1]` loop of `_flush`: each non-blank line closes
the current inline element (text := line, tail := `'\n'`) and opens a fresh
sibling with the same tag and (copied) attributes; blank lines are merged
onto the previous sibling.  `cur` is the open inline element (stack head),
`par` its parent (`_stack[-2]`). -/
def splitLoop (tg : String) (at0 : Attrib) :
    List PyStr → Elem → Elem → Except String (Elem × Elem)
  | [], cur, par => .ok (cur, par)
  | line :: rest, cur, par => do
    if cur.text ≠ none then throw "internal error (text)"
    if cur.tl ≠ none then throw "internal error (tail)"
    if !line.isEmpty && !pyIsSpace line then
      let done := (cur.withText (some line)).withTl (some ['\n'])
      splitLoop tg at0 rest (Elem.mk tg at0 none none .nil) (par.appendChild done)
    else
      splitLoop tg at0 rest cur (appendToPreviousE par (line ++ ['\n']))

namespace OldParseTreeBuilder

/-- `OldParseTreeBuilder._flush(need_eol)`. -/
def flush (need : Int) (s : BState) : Except String BState := do
  let text0 := joinL s.dataB
  let (text1, seen1) := fixTrailing text0 s.seenEol need
  -- "Fix prefix newlines"
  let fixed : PyStr × Int ←
    if s.tailM then
      match s.getLast with
      | none => throw "AttributeError: NoneType has no attribute tag"
      | some le =>
        if (le.tag = "h" || le.tag = "p") && !startsNl text1 then
          if text1.isEmpty then pure (['\n'], 1)
          else pure ('\n' :: text1, seen1)
        else if le.tag = "li" && startsNl text1 then
          let t := text1.tail
          if (stripNl t).isEmpty then pure (t, seen1 - 1) else pure (t, seen1)
        else pure (text1, seen1)
    else pure (text1, seen1)
  let (text2, seen2) := fixed
  if text2.isEmpty then
    return { s with dataB := [], seenEol := seen2 }
  else
    match s.getLast with
    | none => throw "data seen before root element"
    | some le =>
      if !s.tailM && le.tag ∈ inlineNoNl then
        -- inline split
        let (text3, seen3, dataNew) :=
          if seen2 ≠ 0 then (rstripNl text2, (0 : Int), [nlRep seen2.toNat])
          else (text2, seen2, [])
        let lines := splitNl text3
        match s.stack with
        | [] => throw "IndexError: stack"
        | cur :: rest =>
          if !s.lastTop then throw "internal error (last not on top)"
          else
            match lines.dropLast, rest with
            | [], _ =>
              if cur.text ≠ none then throw "internal error (text)"
              .ok { s with stack := (cur.withText (some (lines.getLastD []))) :: rest,
                           dataB := dataNew, seenEol := seen3 }
            | _ :: _, [] => throw "IndexError: stack"
            | _ :: _, par :: rest2 => do
              let (cur2, par2) ← splitLoop cur.tag cur.attrib lines.dropLast cur par
              if cur2.text ≠ none then throw "internal error (text)"
              .ok { s with stack := (cur2.withText (some (lines.getLastD []))) :: par2 :: rest2,
                           dataB := dataNew, seenEol := seen3 }
      else
        if s.tailM then
          match le.tl with
          | some _ => throw "internal error (tail)"
          | none =>
            let s2 := s.setLast (le.withTl (some text2))
            .ok { s2 with dataB := [], seenEol := seen2 }
        else
          match le.text with
          | some _ => throw "internal error (text)"
          | none =>
            let s2 := s.setLast (le.withText (some text2))
            .ok { s2 with dataB := [], seenEol := seen2 }

/-- The part of `OldParseTreeBuilder.start` after the flush: default missing
mandatory attributes (heading `level` → `1`, link `href` → `"404"`, each with
a logged warning not modelled here), create the element, and open it. -/
def startPost (tag : String) (attrib : Option Attrib) (s : BState) : Except String BState := do
  let attrib :=
    if tag = "h" then
      (match attrib with
       | some a => if !a.isEmpty && (dictGet a "level").isSome then some a
                   else some (dictSet a "level" (.i 1))
       | none => some (dictSet [] "level" (.i 1)))
    else if tag = "link" then
      (match attrib with
       | some a => if !a.isEmpty && (dictGet a "href").isSome then some a
                   else some (dictSet a "href" (.s (pys "404")))
       | none => some (dictSet [] "href" (.s (pys "404"))))
    else attrib
  let e :=
    match attrib with
    | some a => Elem.mk tag a none none .nil
    | none => Elem.mk tag [] none none .nil
  if s.stack.isEmpty && tag ≠ "zim-tree" then
    throw "root element needs to be zim-tree"
  return { s with stack := e :: s.stack, lastTop := true, tailM := false }

/-- `OldParseTreeBuilder.start(tag, attrib)`: headings flush demanding two
trailing newlines, paragraphs and verbatim blocks one, everything else
none. -/
def start (tag : String) (attrib : Option Attrib) (s : BState) : Except String BState := do
  if tag = "_ignore_" then return s
  let s ←
    if tag = "h" then flush 2 s
    else if tag = "p" || tag = "pre" then flush 1 s
    else flush 0 s
  startPost tag attrib s

/-- `OldParseTreeBuilder.end(tag)`: flush, check the innermost tag, then
either purge the element (empty, non-void) or close it normally. -/
def end_ (tag : String) (s : BState) : Except String BState := do
  if tag = "_ignore_" then return s
  let s ← if tag = "p" || tag = "pre" then flush 1 s else flush 0 s
  match s.stack with
  | [] => throw "IndexError: pop from empty list"
  | top :: rest =>
    if top.tag ≠ tag then throw "end tag mismatch"
    let s := { s with tailM := true, lastTop := true }
    if !rest.isEmpty &&
       !(tag = "img" || tag = "object" ||
         (truthy top.text && !pyIsSpace (top.text.getD [])) ||
         !top.childrenL.isNil) then
      -- purge empty tags
      match rest with
      | [] => throw "IndexError: stack"
      | par :: rest2 =>
        let par :=
          if truthy top.text && pyIsSpace (top.text.getD []) then
            appendToPreviousE par (top.text.getD [])
          else par
        match par.childrenL.lastGet with
        | some lastC =>
          match lastC.tl with
          | some tlv =>
            .ok { s with stack := par.withChildren (par.childrenL.setLast (lastC.withTl none)) :: rest2,
                         lastTop := false, dataB := [tlv] }
          | none => .ok { s with stack := par :: rest2, lastTop := false }
        | none =>
          match par.text with
          | some txv =>
            .ok { s with stack := (par.withText none) :: rest2,
                         lastTop := true, dataB := [txv] }
          | none => .ok { s with stack := par :: rest2, lastTop := true }
    else
      match rest with
      | [] => .ok { s with stack := [], root := some top, lastTop := true }
      | par :: rest2 => .ok { s with stack := par.appendChild top :: rest2, lastTop := false }

/-- `OldParseTreeBuilder.data(text)`. -/
def data (txt : PyStr) (s : BState) : BState :=
  { s with dataB := s.dataB ++ [txt] }

/-- `OldParseTreeBuilder.close()`. -/
def close (s : BState) : Except String Elem := do
  if !s.stack.isEmpty then throw "missing end tags"
  match s.root with
  | some r => if r.tag = "zim-tree" then .ok r else throw "missing root element"
  | none => throw "missing root element"

end OldParseTreeBuilder

/-- Builder events (`append` is not used by `OldParseTreeBuilder`). -/
inductive BEvent where
  | start (tag : String) (attrib : Option Attrib)
  | data (txt : PyStr)
  | endTag (tag : String)
deriving Repr

def bStep (s : BState) : BEvent → Except String BState
  | .start t a => OldParseTreeBuilder.start t a s
  | .data d => .ok (OldParseTreeBuilder.data d s)
  | .endTag t => OldParseTreeBuilder.end_ t s

/-- Feed a list of events to a fresh `OldParseTreeBuilder`. -/
def bRun (evs : List BEvent) : Except String BState :=
  evs.foldlM bStep initB

/-- Feed events, then `close()`. -/
def buildFromEvents (evs : List BEvent) : Except String Elem := do
  OldParseTreeBuilder.close (← bRun evs)

/-! ## XML serialization (`ParseTree.tostring` / `ParseTree.fromstring`)

`tostring` string-coerces attribute values, writes the XML declaration and
delegates to the stdlib `ElementTree.write` (utf-8, so no second
declaration; `&`,`<`,`>` escaped in character data; `&`,`<`,`>`,`"` and
newline escaped in attribute values; attributes emitted sorted by key; empty
elements written `<t />`).  `fromstring` delegates to `XMLTreeBuilder`, i.e.
expat feeding a stdlib `TreeBuilder`: entity/character references are
decoded, line ends are normalized (`\r\n`/`\r` → `\n`), attribute values are
whitespace-normalized, control characters are rejected, and whitespace
outside the root element is discarded.  Unicode-vs-utf-8 byte encoding is
dropped (strings stay abstract character lists); comments, CDATA sections
and doctypes — which the writer never emits — are not modelled. -/

/-- Python `s.replace(c, r)` for a single-character pattern. -/
def replaceAll (s : PyStr) (c : Char) (r : PyStr) : PyStr :=
  s.foldr (fun a b => (if a = c then r else [a]) ++ b) []

/-- `xml.etree.ElementTree._escape_cdata` (sequential replaces). -/
def escCdata (s : PyStr) : PyStr :=
  replaceAll (replaceAll (replaceAll s '&' (pys "&amp;")) '<' (pys "&lt;")) '>' (pys "&gt;")

/-- `xml.etree.ElementTree._escape_attrib`. -/
def escAttrib (s : PyStr) : PyStr :=
  replaceAll (replaceAll (replaceAll (replaceAll (replaceAll
    s '&' (pys "&amp;")) '<' (pys "&lt;")) '>' (pys "&gt;"))
    '"' (pys "&quot;")) '\n' (pys "&#10;")

/-- Key order used by `sorted(items)` on attribute dictionaries. -/
def keyLe (p q : String × AVal) : Bool := !decide (q.1 < p.1)

def insSorted (p : String × AVal) : Attrib → Attrib
  | [] => [p]
  | q :: qs => if keyLe p q then p :: q :: qs else q :: insSorted p qs

/-- `sorted(element.items())` (stable insertion sort by key). -/
def sortAttribs : Attrib → Attrib
  | [] => []
  | p :: ps => insSorted p (sortAttribs ps)

mutual
/-- `ElementTree._write(file, node, 'utf-8', {})`: the serialized form of one
element, including its tail text. -/
def writeElem : Elem → PyStr
  | .mk t a x l c =>
    let attrs := joinL ((sortAttribs a).map (fun p =>
      ' ' :: (pys p.1 ++ ('=' :: '"' :: (escAttrib p.2.toStr ++ ['"'])))))
    let inner :=
      if truthy x || !c.isNil then
        '>' :: ((if truthy x then escCdata (x.getD []) else []) ++ writeKids c)
          ++ ('<' :: '/' :: (pys t ++ ['>']))
      else pys " />"
    ('<' :: (pys t ++ attrs ++ inner)) ++ (if truthy l then escCdata (l.getD []) else [])
def writeKids : ElemList → PyStr
  | .nil => []
  | .cons e es => writeElem e ++ writeKids es
end

mutual
/-- The attribute string-coercion loop at the top of `tostring`. -/
def Elem.strCoerce : Elem → Elem
  | .mk t a x l c => .mk t (a.map (fun p => (p.1, AVal.s p.2.toStr))) x l c.strCoerce
def ElemList.strCoerce : ElemList → ElemList
  | .nil => .nil
  | .cons e es => .cons e.strCoerce es.strCoerce
end

/-- `ParseTree.tostring()`: returns the XML text and the (mutated) tree. -/
def tostring (root : Elem) : PyStr × Elem :=
  let r := root.strCoerce
  (pys "<?xml version='1.0' encoding='utf-8'?>\n" ++ writeElem r, r)

/-- XML whitespace (`S`). -/
def xmlS (c : Char) : Bool := c = ' ' || c = '\t' || c = '\n' || c = '\r'

/-- Characters expat rejects in a document. -/
def badCtrl (c : Char) : Bool :=
  c.toNat < 32 && !(c.toNat = 9 || c.toNat = 10 || c.toNat = 13)

/-- XML name characters (ASCII approximation of expat's `NameChar`). -/
def xmlNameChar (c : Char) : Bool :=
  c.isAlpha || c.isDigit || c = '_' || c = ':' || c = '-' || c = '.'

/-- Split a leading name from the input. -/
def takeName (s : PyStr) : PyStr × PyStr := s.span xmlNameChar

/-- Skip past the `?>` closing a processing instruction / XML declaration. -/
def skipPI : PyStr → Option PyStr
  | [] => none
  | '?' :: '>' :: rest => some rest
  | _ :: rest => skipPI rest

def hexDigitToNat (c : Char) : Option Nat :=
  if c.isDigit then some (c.toNat - 48)
  else if 'a' ≤ c && c ≤ 'f' then some (c.toNat - 87)
  else if 'A' ≤ c && c ≤ 'F' then some (c.toNat - 55)
  else none

def hexToNat : PyStr → Option Nat
  | [] => none
  | ds =>
    ds.foldl (fun acc c => acc.bind (fun n => (hexDigitToNat c).map (fun d => n * 16 + d)))
      (some 0)

/-- Is `n` an XML `Char` code point (what expat accepts from a reference)? -/
def xmlCharNat (n : Nat) : Bool :=
  (n = 9 || n = 10 || n = 13 || (32 ≤ n && n < 0xd800) ||
   (0xe000 ≤ n && n < 0xfffe) || (0x10000 ≤ n && n ≤ 0x10ffff))

/-- Decode one entity / character reference after a `&`. -/
def scanEntity (input : PyStr) : Option (Char × PyStr) :=
  let nm := input.takeWhile (fun c => c ≠ ';')
  match input.drop nm.length with
  | ';' :: rest =>
    if nm = pys "amp" then some ('&', rest)
    else if nm = pys "lt" then some ('<', rest)
    else if nm = pys "gt" then some ('>', rest)
    else if nm = pys "quot" then some ('"', rest)
    else if nm = pys "apos" then some ('\'', rest)
    else
      match nm with
      | '#' :: 'x' :: ds =>
        (hexToNat ds).bind (fun n =>
          if h : n.isValidChar then
            if xmlCharNat n then some (Char.ofNatAux n h, rest) else none
          else none)
      | '#' :: ds =>
        (digitsToNat ds).bind (fun n =>
          if h : n.isValidChar then
            if xmlCharNat n then some (Char.ofNatAux n h, rest) else none
          else none)
      | _ => none
  | _ => none

/-- Scan an attribute value up to the closing quote, applying expat's
line-end and attribute-value normalization and entity decoding. -/
def scanAttrValue : Nat → PyStr → Char → PyStr → Except String (PyStr × PyStr)
  | 0, _, _, _ => throw "internal: fuel"
  | _ + 1, [], _, _ => throw "unclosed token"
  | n + 1, c :: rest, q, acc =>
    if c = q then .ok (acc, rest)
    else if c = '<' then throw "not well-formed"
    else if c = '&' then
      match scanEntity rest with
      | some (ch, r2) => scanAttrValue n r2 q (acc ++ [ch])
      | none => throw "undefined entity"
    else if c = '\r' then
      match rest with
      | '\n' :: r2 => scanAttrValue n r2 q (acc ++ [' '])
      | _ => scanAttrValue n rest q (acc ++ [' '])
    else if c = '\n' || c = '\t' then scanAttrValue n rest q (acc ++ [' '])
    else if badCtrl c then throw "not well-formed"
    else scanAttrValue n rest q (acc ++ [c])

/-- Scan the attribute list of a start tag, ending at `>` or `/>`. -/
def scanAttrs : Nat → PyStr → Attrib → Except String (Attrib × Bool × PyStr)
  | 0, _, _ => throw "internal: fuel"
  | n + 1, input, acc =>
    match input.dropWhile xmlS with
    | '>' :: r => .ok (acc, false, r)
    | '/' :: '>' :: r => .ok (acc, true, r)
    | rest =>
      match takeName rest with
      | ([], _) => throw "not well-formed"
      | (nm, r2) =>
        match r2.dropWhile xmlS with
        | '=' :: r4 =>
          match r4.dropWhile xmlS with
          | '"' :: r6 => do
            let (v, r7) ← scanAttrValue n r6 '"' []
            scanAttrs n r7 (acc ++ [(String.mk nm, AVal.s v)])
          | '\'' :: r6 => do
            let (v, r7) ← scanAttrValue n r6 '\'' []
            scanAttrs n r7 (acc ++ [(String.mk nm, AVal.s v)])
          | _ => throw "not well-formed"
        | _ => throw "not well-formed"

/-- The expat → `TreeBuilder` state: open-element zipper, finished root,
`_tail` flag, pending character data. -/
structure XPState where
  xstack : List Elem
  xroot : Option Elem
  xtail : Bool
  xdata : PyStr
deriving DecidableEq, Repr

/-- `TreeBuilder._flush`. -/
def xFlush (st : XPState) : Except String XPState :=
  if st.xdata.isEmpty then .ok st
  else
    match st.xstack with
    | [] => throw "internal error (data outside element)"
    | top :: rest =>
      if st.xtail then
        match top.childrenL.lastGet with
        | none => throw "internal error (tail)"
        | some lastC =>
          match lastC.tl with
          | some _ => throw "internal error (tail)"
          | none =>
            .ok { st with
                  xstack := top.withChildren (top.childrenL.setLast (lastC.withTl (some st.xdata))) :: rest,
                  xdata := [] }
      else
        match top.text with
        | some _ => throw "internal error (text)"
        | none => .ok { st with xstack := top.withText (some st.xdata) :: rest, xdata := [] }

/-- `TreeBuilder.start` (via expat's start-element handler). -/
def xStart (t : String) (a : Attrib) (st : XPState) : Except String XPState := do
  if st.xroot.isSome && st.xstack.isEmpty then throw "junk after document element"
  let st ← xFlush st
  return { st with xstack := Elem.mk t a none none .nil :: st.xstack, xtail := false }

/-- `TreeBuilder.end` (via expat's end-element handler). -/
def xEnd (t : String) (st : XPState) : Except String XPState := do
  let st ← xFlush st
  match st.xstack with
  | [] => throw "mismatched tag"
  | top :: rest =>
    if top.tag ≠ t then throw "mismatched tag"
    else
      match rest with
      | [] => return { st with xstack := [], xroot := some top, xtail := true }
      | par :: rest2 => return { st with xstack := par.appendChild top :: rest2, xtail := true }

/-- The expat parsing loop over the document characters. -/
def xmlLoop : Nat → PyStr → XPState → Except String XPState
  | 0, _, _ => throw "internal: fuel"
  | _ + 1, [], st => .ok st
  | n + 1, '<' :: rest, st =>
    match rest with
    | '?' :: r2 =>
      (match skipPI r2 with
       | none => throw "unclosed token"
       | some r3 => xmlLoop n r3 st)
    | '/' :: r2 =>
      (match takeName r2 with
       | ([], _) => throw "not well-formed"
       | (nm, r3) =>
         match r3.dropWhile xmlS with
         | '>' :: r4 => do
           let st ← xEnd (String.mk nm) st
           xmlLoop n r4 st
         | _ => throw "not well-formed")
    | _ =>
      (match takeName rest with
       | ([], _) => throw "not well-formed"
       | (nm, r2) => do
         let (attrs, selfClose, r3) ← scanAttrs n r2 []
         let st ← xStart (String.mk nm) attrs st
         let st ← if selfClose then xEnd (String.mk nm) st else pure st
         xmlLoop n r3 st)
  | n + 1, '&' :: rest, st =>
    if st.xstack.isEmpty then throw "junk after document element"
    else
      match scanEntity rest with
      | some (ch, r2) => xmlLoop n r2 { st with xdata := st.xdata ++ [ch] }
      | none => throw "undefined entity"
  | n + 1, c :: rest, st =>
    if st.xstack.isEmpty then
      if xmlS c then xmlLoop n rest st else throw "junk after document element"
    else if c = '\r' then
      match rest with
      | '\n' :: r2 => xmlLoop n r2 { st with xdata := st.xdata ++ ['\n'] }
      | _ => xmlLoop n rest { st with xdata := st.xdata ++ ['\n'] }
    else if badCtrl c then throw "not well-formed"
    else xmlLoop n rest { st with xdata := st.xdata ++ [c] }

/-- Run the parsing loop with sufficient fuel. -/
def xmlRunOn (input : PyStr) (st : XPState) : Except String XPState :=
  xmlLoop (input.length + 1) input st

/-- `ParseTree.fromstring(string)`: parse and take the root. -/
def fromstring (s : PyStr) : Except String Elem := do
  let st ← xmlRunOn s ⟨[], none, false, []⟩
  if !st.xstack.isEmpty then throw "no element found"
  match st.xroot with
  | some r => .ok r
  | none => throw "no element found"

instance {ε α : Type} [DecidableEq ε] [DecidableEq α] : DecidableEq (Except ε α) :=
  fun a b =>
    match a, b with
    | .ok x, .ok y => if h : x = y then .isTrue (by rw [h]) else .isFalse (by simp [h])
    | .error x, .error y => if h : x = y then .isTrue (by rw [h]) else .isFalse (by simp [h])
    | .ok _, .error _ => .isFalse (by simp)
    | .error _, .ok _ => .isFalse (by simp)

/-! ## Specification-side predicates

`spec3Invariants` is written from the spec's §3 invariant list (it is the
hypothesis class of the round-trip claim); the tag sets follow the spec's
`TagKind` enumeration translated to the source's tag names. -/

/-- Spec §3 block-level tags (source names). -/
def blockTags : List String := ["p", "h", "pre", "div", "object", "img", "li"]

/-- Spec §3 inline tags (source names). -/
def inlineTagsSpec : List String :=
  ["emphasis", "strong", "mark", "strike", "code", "sub", "sup", "link", "tag", "anchor"]

def lastIsNl (s : PyStr) : Bool := s.getLast? = some '\n'

mutual
/-- "Trailing text (its own or last descendant's tail) ends with a newline",
mirroring `get_ends_with_newline`. -/
def endsNl : Elem → Bool
  | .mk t _ x l c =>
    if truthy l then lastIsNl (l.getD [])
    else if t = "li" || t = "h" then true
    else
      match endsNlLast c with
      | none => truthy x && lastIsNl (x.getD [])
      | some b => b
/-- `endsNl` of the last element of a children list, if any. -/
def endsNlLast : ElemList → Option Bool
  | .nil => none
  | .cons e es =>
    match endsNlLast es with
    | none => some (endsNl e)
    | some b => some b
end

/-- One node's share of the spec §3 invariants. -/
def spec3Node (e : Elem) : Bool :=
  (if e.tag ∈ blockTags then endsNl e else true) &&
  (if e.tag ∈ inlineTagsSpec then !(e.text.getD []).contains '\n' else true) &&
  (if e.tag = "img" || e.tag = "object" then true
   else !(e.childrenL.isNil && !truthy e.text && !truthy e.tl)) &&
  (if e.tag = "h" then
     (match (dictGet e.attrib "level").bind AVal.toInt with
      | some n => decide (1 ≤ n ∧ n ≤ 6)
      | none => false) &&
     truthy e.tl && startsNl (e.tl.getD []) && !startsNl ((e.tl.getD []).drop 1)
   else true) &&
  (if e.tag = "link" then (dictGet e.attrib "href").isSome else true)

mutual
/-- Spec §3 invariants, checked on every node of the tree. -/
def Elem.spec3Inv : Elem → Bool
  | .mk t a x l c => spec3Node (.mk t a x l c) && ElemList.spec3Inv c
def ElemList.spec3Inv : ElemList → Bool
  | .nil => true
  | .cons e es => Elem.spec3Inv e && ElemList.spec3Inv es
end

/-! Side conditions under which the stdlib XML layer is actually lossless
(the amended round-trip class): XML-name tags and attribute keys, key-sorted
duplicate-free attribute maps with string values free of control characters,
`\r` and `\t`, and texts/tails that are `None` or nonempty without control
characters or `\r`. -/

def goodName (s : String) : Bool := !s.data.isEmpty && s.data.all xmlNameChar

def goodCdataChar (c : Char) : Bool := !badCtrl c && c ≠ '\r'

def goodCdata : Option PyStr → Bool
  | none => true
  | some s => !s.isEmpty && s.all goodCdataChar

def goodAttrPair (p : String × AVal) : Bool :=
  goodName p.1 &&
  (match p.2 with
   | .s v => v.all (fun c => !badCtrl c && c ≠ '\r' && c ≠ '\t')
   | .i _ => false)

def keySorted (a : Attrib) : Bool :=
  decide (List.Chain' (fun p q : String × AVal => p.1 < q.1) a)

mutual
def Elem.xmlSafe : Elem → Bool
  | .mk t a x l c =>
    goodName t && a.all goodAttrPair && keySorted a &&
    goodCdata x && goodCdata l && ElemList.xmlSafe c
def ElemList.xmlSafe : ElemList → Bool
  | .nil => true
  | .cons e es => Elem.xmlSafe e && ElemList.xmlSafe es
end

/-! List-level form of `cleanup_headings` and the claim's "nearest enclosing
ancestor" reading. -/

/-- `cleanup_headings` on the list of original levels, also returning the
final path stack. -/
def assignLevels (offset mx : Int) (path : List (Int × Int)) :
    List Int → List Int × List (Int × Int)
  | [] => ([], path)
  | c :: rest =>
    let (a, path2) := cleanupStep offset mx path c
    let (as2, path3) := assignLevels offset mx path2 rest
    (a :: as2, path3)

/-- The assigned level of the nearest preceding heading with a smaller
original level (`done` holds the processed `(original, assigned)` pairs, most
recent first): the claim's "nearest enclosing ancestor heading". -/
def nslAssigned (done : List (Int × Int)) (c : Int) : Option Int :=
  (done.find? (fun p => decide (p.1 < c))).map (·.2)

/-- Reference assignment for one heading: nearest-ancestor's assigned level
plus one (or `offset+1`), clamped to `mx`. -/
def specA (offset mx : Int) (done : List (Int × Int)) (c : Int) : Int :=
  let a := match nslAssigned done c with
           | none => offset + 1
           | some b => b + 1
  if a > mx then mx else a

/-- Reference assignment over the whole document-order heading sequence. -/
def specAssign (offset mx : Int) : List (Int × Int) → List Int → List Int
  | _, [] => []
  | done, c :: rest =>
    specA offset mx done c :: specAssign offset mx ((c, specA offset mx done c) :: done) rest

/-- The claim's consequence, as stated: every heading's assigned level
*exceeds its nearest enclosing ancestor's assigned level by exactly one*
(`offset = 0`, so `1` with no ancestor), with no clamping escape hatch. -/
def claimStrict (done : List (Int × Int)) : List Int → List Int → Bool
  | [], [] => true
  | c :: cs, a :: as2 =>
    (match nslAssigned done c with
     | none => decide (a = 1)
     | some b => decide (a = b + 1)) &&
    claimStrict ((c, a) :: done) cs as2
  | _, _ => false

mutual
/-- Every `'h'` node carries an `int()`-able `level` attribute. -/
def Elem.hWF : Elem → Bool
  | .mk t a _ _ c =>
    (if t = "h" then ((dictGet a "level").bind AVal.toInt).isSome else true) && ElemList.hWF c
def ElemList.hWF : ElemList → Bool
  | .nil => true
  | .cons e es => Elem.hWF e && ElemList.hWF es
end

/-- The non-blank-line test of the inline split (`line and not
line.isspace()`), which is also the purge test for the final line. -/
def lineKeep (l : PyStr) : Bool := !l.isEmpty && !pyIsSpace l

/-- The claim's notion of a structurally well-nested event stream: every
non-`_ignore_` `end(tag)` names the innermost open element. -/
def noMismatch : List String → List BEvent → Bool
  | _, [] => true
  | stk, .data _ :: evs => noMismatch stk evs
  | stk, .start t _ :: evs =>
    if t = "_ignore_" then noMismatch stk evs else noMismatch (t :: stk) evs
  | stk, .endTag t :: evs =>
    if t = "_ignore_" then noMismatch stk evs
    else
      match stk with
      | top :: rest => t = top && noMismatch rest evs
      | [] => false

/-! Concrete fixtures used by the claims. -/

/-- C1 event stream: a `strong` span fed arbitrary text. -/
def c1events (a : Attrib) (t : PyStr) : List BEvent :=
  [.start "zim-tree" none, .start "strong" (some a), .data t,
   .endTag "strong", .endTag "zim-tree"]

/-- C3 event stream: paragraph "x", then a level-1 heading "T". -/
def c3events : List BEvent :=
  [.start "zim-tree" none, .start "p" none, .data (pys "x"), .endTag "p",
   .start "h" (some [("level", .i 1)]), .data (pys "T"), .endTag "h",
   .endTag "zim-tree"]

/-- C4 counterexample stream: perfectly nested (no mismatched `end`), all
mandatory attributes present, yet the build aborts with an internal
consistency error. -/
def c4events : List BEvent :=
  [.start "zim-tree" none, .start "p" none, .start "emphasis" none,
   .endTag "emphasis", .data (pys "x"), .start "strong" none, .endTag "strong",
   .data (pys "y"), .endTag "p", .endTag "zim-tree"]

/-- C5 counterexample tree: headings with original levels 1..7. -/
def t7heads : Elem :=
  .mk "zim-tree" [] none none (.ofList
    ((List.range 7).map (fun i =>
      Elem.mk "h" [("level", .i (i + 1))] (some (pys "T")) (some (pys "\n")) .nil)))

/-- C6 fixture tree: three paragraphs under the root. -/
def c6tree : Elem :=
  .mk "zim-tree" [] none none (.cons
    (.mk "p" [] (some (pys "x\n")) none .nil) (.cons
    (.mk "p" [] (some (pys "y\n")) none .nil) (.cons
    (.mk "p" [] (some (pys "z\n")) none .nil) .nil)))

/-- C6 fixture format: paragraphs have a literal wrap sequence, everything
else (other than the root) would dispatch to `dump_<tag>`. -/
def toyFmt : DumpFmt :=
  { tags := fun t => if t = "p" then some (pys "<P>", pys "</P>") else none
    handler := fun _ _ _ => none
    encode := id }

/-- C7 counterexample tree: an empty root (no children, no text). -/
def emptyRoot : Elem := .mk "zim-tree" [] none none .nil

/-- C8 counterexample tree: satisfies the §3 invariants but carries an
empty-string text, which the XML writer drops (`if node.text:`), so the
round trip returns `None` there instead. -/
def cexEmptyText : Elem :=
  .mk "zim-tree" [] none none (.cons
    (.mk "p" [] (some []) none
      (.cons (.mk "emphasis" [] (some (pys "x")) (some (pys "\n")) .nil) .nil)) .nil)

/-- C8 witness tree for the amended round trip. -/
def rtSample : Elem :=
  .mk "zim-tree" [] none none (.cons
    (.mk "p" [("a", .s (pys "x\ny")), ("b", .s (pys "2 > 1 & 0 < 1"))]
      (some (pys "hi <&> there\n")) (some (pys "\n"))
      (.cons (.mk "img" [("src", .s (pys "f.png"))] none none .nil) .nil)) .nil)

/-- C10 witness heap: two single-child trees. -/
def h10 : Heap :=
  [ { tag := "zim-tree", attrib := [], text := none, tl := none, childIds := [1] },
    { tag := "p", attrib := [], text := some (pys "x\n"), tl := none, childIds := [] },
    { tag := "zim-tree", attrib := [], text := some (pys "t"), tl := none, childIds := [3] },
    { tag := "p", attrib := [], text := some (pys "y\n"), tl := none, childIds := [] } ]

def VRes.notErr {σ : Type} : VRes σ → Bool
  | .err _ _ => false
  | _ => true

/-- A visitor none of whose callbacks raises a non-control exception. -/
def errFreeVisitor {σ : Type} (v : PyVisitor σ) : Prop :=
  (∀ t a s, (v.start t a s).notErr) ∧ (∀ tx s, (v.text tx s).notErr) ∧
  (∀ t s, (v.endT t s).notErr) ∧ (∀ t a x s, (v.append t a x s).notErr)

def VStep.notFailed {σ : Type} : VStep σ → Bool
  | .failed _ _ => false
  | _ => true

def KRes.notFailed {σ : Type} : KRes σ → Bool
  | .failedK _ _ => false
  | _ => true

def exIsOk {α : Type} : Except String α → Bool
  | .ok _ => true
  | .error _ => false

/-- `ParseTree().fromstring(tree.tostring())`. -/
def xmlRoundTrip (t : Elem) : Except String Elem := fromstring (tostring t).1

/-- C4 witness fixture: the builder state after
`start(zim-tree); start(p); data("x")` (an open paragraph with buffered
text). -/
def W4s : BState :=
  ⟨[Elem.mk "p" [] none none .nil, Elem.mk "zim-tree" [] none none .nil],
   none, true, false, [pys "x"], 0⟩

/-- C4 witness fixture: the state `end_ "p" W4s` produces. -/
def W4s1 : BState :=
  ⟨[Elem.mk "zim-tree" [] none none
      (.cons (Elem.mk "p" [] (some ['x', '\n']) none .nil) .nil)],
   none, false, true, [], 1⟩


/-- One step of the `for line in lines[:-1]` split loop, seen from the
parent: a non-blank line appends a completed sibling (same tag, copied
attributes, text = the line, tail = a newline), a blank line is merged onto
the previous sibling as whitespace. -/
def splitStep (tg : String) (a : Attrib) (p : Elem) (line : PyStr) : Elem :=
  if lineKeep line then p.appendChild (Elem.mk tg a (some line) (some ['\n']) .nil)
  else appendToPreviousE p (line ++ ['\n'])

/-- Invariant of the siblings the split loop creates: tag `strong`, the
original attributes, no children, a non-blank single-line text, and a tail
starting with a newline. -/
def KidOK (a : Attrib) (c : Elem) : Prop :=
  c.tag = "strong" ∧ c.attrib = a ∧ c.childrenL = ElemList.nil ∧
  (∃ l, c.text = some l ∧ lineKeep l = true ∧ '\n' ∉ l) ∧
  startsNl (c.tl.getD []) = true

/-! # Theorems -/

/-! ## Helper lemmas: the flush preserves the stack tags -/

/-- `withText` leaves the tag unchanged. -/
theorem tag_withText (e : Elem) (x : Option PyStr) : (e.withText x).tag = e.tag := by
  cases e; rfl
theorem tag_withTl (e : Elem) (x : Option PyStr) : (e.withTl x).tag = e.tag := by
  cases e; rfl
theorem tag_withChildren (e : Elem) (c : ElemList) : (e.withChildren c).tag = e.tag := by
  cases e; rfl
theorem tag_appendChild (e c : Elem) : (e.appendChild c).tag = e.tag := by
  cases e; rfl
theorem tag_appendToPreviousE (p : Elem) (t : PyStr) : (appendToPreviousE p t).tag = p.tag := by
  unfold appendToPreviousE
  cases p.childrenL.lastGet with
  | some prev => simp [tag_withChildren]
  | none => simp [tag_withText]

theorem splitLoop_tags (tg : String) (at0 : Attrib) :
    ∀ (ls : List PyStr) (cur par c2 p2 : Elem),
      cur.tag = tg →
      splitLoop tg at0 ls cur par = .ok (c2, p2) →
      c2.tag = tg ∧ p2.tag = par.tag := by
  intro ls
  induction ls with
  | nil =>
    intro cur par c2 p2 hct h
    unfold splitLoop at h
    cases h
    exact ⟨hct, rfl⟩
  | cons line rest ih =>
    intro cur par c2 p2 hct h
    unfold splitLoop at h
    simp only [bind, Except.bind, pure, Except.pure, throw, throwThe,
      MonadExceptOf.throw] at h
    by_cases h1 : cur.text = none
    · rw [if_neg (not_not_intro h1)] at h
      by_cases h2 : cur.tl = none
      · rw [if_neg (not_not_intro h2)] at h
        by_cases h3 : (!line.isEmpty && !pyIsSpace line) = true
        · rw [if_pos h3] at h
          have hr := ih (Elem.mk tg at0 none none .nil)
            (par.appendChild ((cur.withText (some line)).withTl (some ['\n'])))
            c2 p2 rfl h
          exact ⟨hr.1, hr.2.trans (tag_appendChild _ _)⟩
        · rw [if_neg h3] at h
          have hr := ih cur (appendToPreviousE par (line ++ ['\n'])) c2 p2 hct h
          exact ⟨hr.1, hr.2.trans (tag_appendToPreviousE _ _)⟩
      · rw [if_pos h2] at h
        simp at h
    · rw [if_pos h1] at h
      simp at h


theorem setLast_tags (s : BState) (le e : Elem) (hg : s.getLast = some le)
    (ht : e.tag = le.tag) :
    (s.setLast e).stack.map Elem.tag = s.stack.map Elem.tag := by
  unfold BState.getLast at hg
  cases hs : s.stack with
  | nil => simp only [BState.setLast, hs]
  | cons top rest =>
    rw [hs] at hg
    by_cases hl : s.lastTop = true
    · simp only [if_pos hl] at hg
      cases hg
      simp only [BState.setLast, hs, if_pos hl, List.map, ht]
    · simp only [BState.setLast, hs, if_neg hl, List.map, tag_withChildren]

theorem flushCont_tags (s s1 : BState) (le : Elem) (text2 : PyStr) (seen2 : Int)
    (hgl : s.getLast = some le)
    (h : (if text2.isEmpty then
        Except.ok { s with dataB := [], seenEol := seen2 }
      else
        if !s.tailM && le.tag ∈ inlineNoNl then
          let (text3, seen3, dataNew) :=
            if seen2 ≠ 0 then (rstripNl text2, (0 : Int), [nlRep seen2.toNat])
            else (text2, seen2, [])
          let lines := splitNl text3
          match s.stack with
          | [] => throw "IndexError: stack"
          | cur :: rest =>
            if !s.lastTop then throw "internal error (last not on top)"
            else
              match lines.dropLast, rest with
              | [], _ =>
                if cur.text ≠ none then throw "internal error (text)"
                else Except.ok { s with
                                  stack := (cur.withText (some (lines.getLastD []))) :: rest,
                                  dataB := dataNew, seenEol := seen3 }
              | _ :: _, [] => throw "IndexError: stack"
              | _ :: _, par :: rest2 => do
                let (cur2, par2) ← splitLoop cur.tag cur.attrib lines.dropLast cur par
                if cur2.text ≠ none then throw "internal error (text)"
                Except.ok { s with
                             stack := (cur2.withText (some (lines.getLastD []))) :: par2 :: rest2,
                             dataB := dataNew, seenEol := seen3 }
        else
          if s.tailM then
            match le.tl with
            | some _ => throw "internal error (tail)"
            | none =>
              let s2 := s.setLast (le.withTl (some text2))
              Except.ok { s2 with dataB := [], seenEol := seen2 }
          else
            match le.text with
            | some _ => throw "internal error (text)"
            | none =>
              let s2 := s.setLast (le.withText (some text2))
              Except.ok { s2 with dataB := [], seenEol := seen2 }
      : Except String BState) = .ok s1) :
    s1.stack.map Elem.tag = s.stack.map Elem.tag := by
  simp only [bind, Except.bind, pure, Except.pure, throw, throwThe,
    MonadExceptOf.throw] at h
  by_cases hemp : text2.isEmpty = true
  · rw [if_pos hemp] at h
    cases h
    rfl
  · rw [if_neg hemp] at h
    set trip := if seen2 ≠ 0 then (rstripNl text2, (0 : Int), [nlRep seen2.toNat])
                else (text2, seen2, ([] : List PyStr)) with htr
    clear_value trip
    obtain ⟨text3, seen3, dataNew⟩ := trip
    simp only [] at h
    by_cases hin : (!s.tailM && decide (le.tag ∈ inlineNoNl)) = true
    · rw [if_pos hin] at h
      cases hst : s.stack with
      | nil => rw [hst] at h; simp at h
      | cons cur rest =>
        rw [hst] at h
        simp only [] at h
        by_cases hlt : (!s.lastTop) = true
        · rw [if_pos hlt] at h; simp at h
        · rw [if_neg hlt] at h
          cases hdl : (splitNl text3).dropLast with
          | nil =>
            rw [hdl] at h
            simp only [] at h
            by_cases htx : cur.text = none
            · rw [if_neg (not_not_intro htx)] at h
              cases h
              simp [List.map, tag_withText]
            · rw [if_pos htx] at h; simp at h
          | cons a as =>
            rw [hdl] at h
            cases rest with
            | nil => simp at h
            | cons par rest2 =>
              simp only [] at h
              cases hsp : splitLoop cur.tag cur.attrib (a :: as) cur par with
              | error e => rw [hsp] at h; simp at h
              | ok v =>
                rw [hsp] at h
                obtain ⟨cur2, par2⟩ := v
                simp only [] at h
                by_cases htx : cur2.text = none
                · rw [if_neg (not_not_intro htx)] at h
                  cases h
                  have hsl := splitLoop_tags cur.tag cur.attrib (a :: as) cur par
                    cur2 par2 rfl hsp
                  simp [List.map, tag_withText, hsl.1, hsl.2]
                · rw [if_pos htx] at h; simp at h
    · rw [if_neg hin] at h
      by_cases htm : s.tailM = true
      · rw [if_pos htm] at h
        cases htl : le.tl with
        | some t => rw [htl] at h; simp at h
        | none =>
          rw [htl] at h
          simp only [] at h
          cases h
          exact setLast_tags s le (le.withTl (some text2)) hgl (tag_withTl le _)
      · rw [if_neg htm] at h
        cases hte : le.text with
        | some t => rw [hte] at h; simp at h
        | none =>
          rw [hte] at h
          simp only [] at h
          cases h
          exact setLast_tags s le (le.withText (some text2)) hgl (tag_withText le _)

theorem flush_stack_tags (n : Int) (s s1 : BState)
    (h : OldParseTreeBuilder.flush n s = .ok s1) :
    s1.stack.map Elem.tag = s.stack.map Elem.tag := by
  unfold OldParseTreeBuilder.flush at h
  simp only [bind, Except.bind, pure, Except.pure, throw, throwThe,
    MonadExceptOf.throw] at h
  by_cases htm : s.tailM = true
  · rw [if_pos htm] at h
    cases hgl : s.getLast with
    | none => rw [hgl] at h; simp at h
    | some le =>
      rw [hgl] at h
      simp only [] at h
      by_cases hc1 : ((decide (le.tag = "h") || decide (le.tag = "p")) &&
          !startsNl (fixTrailing (joinL s.dataB) s.seenEol n).1) = true
      · rw [if_pos hc1] at h
        by_cases hc2 : List.isEmpty (fixTrailing (joinL s.dataB) s.seenEol n).1 = true
        · rw [if_pos hc2] at h
          exact flushCont_tags s s1 le _ _ hgl h
        · rw [if_neg hc2] at h
          exact flushCont_tags s s1 le _ _ hgl h
      · rw [if_neg hc1] at h
        by_cases hc3 : (decide (le.tag = "li") &&
            startsNl (fixTrailing (joinL s.dataB) s.seenEol n).1) = true
        · rw [if_pos hc3] at h
          by_cases hc4 : List.isEmpty
              (stripNl (fixTrailing (joinL s.dataB) s.seenEol n).1.tail) = true
          · rw [if_pos hc4] at h
            exact flushCont_tags s s1 le _ _ hgl h
          · rw [if_neg hc4] at h
            exact flushCont_tags s s1 le _ _ hgl h
        · rw [if_neg hc3] at h
          exact flushCont_tags s s1 le _ _ hgl h
  · rw [if_neg htm] at h
    cases hgl : s.getLast with
    | none =>
      rw [hgl] at h
      by_cases hemp : List.isEmpty (fixTrailing (joinL s.dataB) s.seenEol n).1 = true
      · rw [if_pos hemp] at h
        cases h
        rfl
      · rw [if_neg hemp] at h
        simp at h
    | some le =>
      rw [hgl] at h
      exact flushCont_tags s s1 le _ _ hgl h

/-! ## C4 — error policy of the normalizer -/

/-- C4 (counterexample): the "aborts iff a structural error occurs" claim is
false in the only-if direction.  In `c4events` every `end` tag matches the
innermost open element (`noMismatch` checks this) and every `h`/`link`
attribute is present, yet the build aborts: purging the empty `emphasis`
leaves `tail_marker` set, the following flush writes the pending text into
the still-open paragraph as a tail, and the flush at `end(p)` then hits the
`assert self._last.tail is None` guard, raising "internal error (tail)". -/
theorem end_mismatch_claim_false :
    noMismatch [] c4events = true ∧
    bRun c4events = .error "internal error (tail)" :=
  ⟨by decide, by rfl⟩

/-- C4 (amended): the parts of the claim that do hold.  (1) A mismatched end
tag always aborts: whenever `end(tag)` succeeds (for a real tag, not
`_ignore_`), the innermost open element before the call carried exactly
`tag` (the flush never changes the stack tags, so the `top.tag != tag` check
compares against the pre-call innermost element).  (2) `start("h")` with no
attributes behaves exactly like `start("h")` with `level=1`.  (3)
`start("link")` with no attributes behaves exactly like `start("link")`
with `href="404"`.  (4) Whether `start("h")` aborts never depends on the
attributes, so a missing `level` by itself never aborts. -/
theorem end_mismatch_amended :
    (∀ (tag : String) (s s1 : BState), tag ≠ "_ignore_" →
        OldParseTreeBuilder.end_ tag s = .ok s1 →
        (s.stack.map Elem.tag).head? = some tag) ∧
    (∀ s, OldParseTreeBuilder.start "h" none s =
        OldParseTreeBuilder.start "h" (some [("level", AVal.i 1)]) s) ∧
    (∀ s, OldParseTreeBuilder.start "link" none s =
        OldParseTreeBuilder.start "link" (some [("href", AVal.s (pys "404"))]) s) ∧
    (∀ (a : Attrib) (s : BState),
        exIsOk (OldParseTreeBuilder.start "h" (some a) s) =
        exIsOk (OldParseTreeBuilder.start "h" none s)) := by
  refine ⟨?_, fun s => rfl, fun s => rfl, ?_⟩
  · intro tag s s1 hig h
    unfold OldParseTreeBuilder.end_ at h
    simp only [bind, Except.bind, pure, Except.pure, throw, throwThe,
      MonadExceptOf.throw] at h
    rw [if_neg hig] at h
    by_cases hpp : (decide (tag = "p") || decide (tag = "pre")) = true
    · rw [if_pos hpp] at h
      cases hf : OldParseTreeBuilder.flush 1 s with
      | error e => rw [hf] at h; simp at h
      | ok s2 =>
        rw [hf] at h
        simp only [] at h
        cases hstk : s2.stack with
        | nil => rw [hstk] at h; simp at h
        | cons top rest =>
          rw [hstk] at h
          simp only [] at h
          by_cases htt : top.tag = tag
          · have hft := flush_stack_tags 1 s s2 hf
            rw [hstk] at hft
            rw [← hft]
            simp [htt]
          · rw [if_pos htt] at h
            simp at h
    · rw [if_neg hpp] at h
      cases hf : OldParseTreeBuilder.flush 0 s with
      | error e => rw [hf] at h; simp at h
      | ok s2 =>
        rw [hf] at h
        simp only [] at h
        cases hstk : s2.stack with
        | nil => rw [hstk] at h; simp at h
        | cons top rest =>
          rw [hstk] at h
          simp only [] at h
          by_cases htt : top.tag = tag
          · have hft := flush_stack_tags 0 s s2 hf
            rw [hstk] at hft
            rw [← hft]
            simp [htt]
          · rw [if_pos htt] at h
            simp at h
  · intro a s
    have hrw : ∀ (A : Option Attrib), OldParseTreeBuilder.start "h" A s =
        Except.bind (OldParseTreeBuilder.flush 2 s)
          (fun s2 => OldParseTreeBuilder.startPost "h" A s2) := fun A => rfl
    rw [hrw, hrw]
    cases hf : OldParseTreeBuilder.flush 2 s with
    | error e => rfl
    | ok s2 =>
      show exIsOk (OldParseTreeBuilder.startPost "h" (some a) s2) =
        exIsOk (OldParseTreeBuilder.startPost "h" none s2)
      unfold OldParseTreeBuilder.startPost
      by_cases hc : (s2.stack.isEmpty && decide ("h" ≠ "zim-tree")) = true
      · simp only [bind, Except.bind, pure, Except.pure, throw, throwThe,
          MonadExceptOf.throw, if_pos hc]
      · simp only [bind, Except.bind, pure, Except.pure, throw, throwThe,
          MonadExceptOf.throw, if_neg hc]
        rfl

/-- C4 witness: the mismatch-aborts direction applied at a concrete
successful `end("p")`. -/
theorem end_mismatch_amended_witness :
    (("p" : String) ≠ "_ignore_" ∧ OldParseTreeBuilder.end_ "p" W4s = .ok W4s1) ∧
    (List.map Elem.tag W4s.stack).head? = some "p" :=
  ⟨⟨by decide, by rfl⟩,
   end_mismatch_amended.1 "p" W4s W4s1 (by decide) (by rfl)⟩

/-! ## C9 — `increase_list_iter` -/

/-- C9 (counterexample): as stated the claim is false at two inputs. `"ab"`
is neither an `int()`-parsable string nor a single letter, yet the substring
`index` finds it at position 0 and the function returns `"b"` rather than
`None`; and `"z"` maps to `"A"` (the next entry of `string.letters` =
lowercase ++ uppercase), not to `"a"` — the wrap to `"a"` happens at `"Z"`. -/
theorem increase_list_iter_claim_false :
    (pyInt (pys "ab") = none ∧ (pys "ab").length ≠ 1 ∧
      increase_list_iter (pys "ab") = some (pys "b")) ∧
    increase_list_iter (pys "z") = some (pys "A") ∧ pys "A" ≠ pys "a" := by
  decide

/-- C9 (amended): integer inputs are incremented; a single letter other than
`'Z'` advances one position in `string.letters` (so `'z'` goes to `'A'`);
`'Z'` wraps to `'a'`; inputs that are neither `int()`-parsable nor substrings
of `string.letters` give `None` (substrings advance their first occurrence,
e.g. the counterexample's `"ab"`). -/
theorem increase_list_iter_amended :
    (∀ s n, pyInt s = some n → increase_list_iter s = some (pyIntStr (n + 1))) ∧
    ((List.range 51).all (fun i =>
        increase_list_iter [lettersPy.getD i ' '] = some [lettersPy.getD (i + 1) ' ']) = true) ∧
    increase_list_iter (pys "Z") = some (pys "a") ∧
    (∀ s, pyInt s = none → strIndex lettersPy s = none → increase_list_iter s = none) := by
  refine ⟨?_, by decide, by decide, ?_⟩
  · intro s n h
    unfold increase_list_iter
    rw [h]
  · intro s h1 h2
    unfold increase_list_iter
    rw [h1, h2]

/-- C9 (witness): the amended theorem applied at `"41"` and `"!"`. -/
theorem increase_list_iter_amended_witness :
    increase_list_iter (pys "41") = some (pys "42") ∧
    increase_list_iter (pys "!") = none := by
  constructor
  · have h := increase_list_iter_amended.1 (pys "41") 41 (by decide)
    simpa using h
  · exact increase_list_iter_amended.2.2.2 (pys "!") (by decide) (by decide)

/-! ## C7 — `ParseTree.pop_heading` -/

/-- C7 (counterexample): on a tree whose root has no children (and no text),
`pop_heading` falls off the end of the `if children:` block and returns a
bare `None`, not the `(None, None)` pair the claim (and the docstring)
promise. -/
theorem pop_heading_claim_false :
    pop_heading (-1) emptyRoot = .ok (.bareNone, emptyRoot) ∧
    PopRet.bareNone ≠ PopRet.pair none none := by decide

/-- C7 (amended): `pop_heading` removes a leading heading of admissible level
and returns its text and level; a *non-whitespace* trailing tail becomes the
new root text, but a whitespace-only tail is discarded; with non-whitespace
root text, a non-heading first child, or a too-deep heading it is a no-op
returning `(None, None)`; and with no children at all it returns a bare
`None` instead of the pair (contradicting its own docstring). -/
theorem pop_heading_amended (lvl : Int) (root : Elem) :
    ((truthy root.text && !pyIsSpace (root.text.getD [])) = true →
      pop_heading lvl root = .ok (.pair none none, root)) ∧
    (∀ first m,
      (truthy root.text && !pyIsSpace (root.text.getD [])) = false →
      root.childrenL.firstGet = some first → first.tag = "h" →
      (dictGet first.attrib "level").bind AVal.toInt = some m →
      (lvl = -1 || decide (m ≤ lvl)) = true →
      pop_heading lvl root = .ok (.pair first.text (some m),
        if (truthy first.tl && !pyIsSpace (first.tl.getD [])) = true then
          (root.withChildren root.childrenL.dropFirst).withText first.tl
        else root.withChildren root.childrenL.dropFirst)) ∧
    (∀ first m,
      (truthy root.text && !pyIsSpace (root.text.getD [])) = false →
      root.childrenL.firstGet = some first → first.tag = "h" →
      (dictGet first.attrib "level").bind AVal.toInt = some m →
      (lvl = -1 || decide (m ≤ lvl)) = false →
      pop_heading lvl root = .ok (.pair none none, root)) ∧
    (∀ first,
      (truthy root.text && !pyIsSpace (root.text.getD [])) = false →
      root.childrenL.firstGet = some first → first.tag ≠ "h" →
      pop_heading lvl root = .ok (.pair none none, root)) ∧
    ((truthy root.text && !pyIsSpace (root.text.getD [])) = false →
      root.childrenL.firstGet = none →
      pop_heading lvl root = .ok (.bareNone, root)) := by
  refine ⟨?_, ?_, ?_, ?_, ?_⟩
  · intro h1
    unfold pop_heading
    simp only [h1, if_true]
    rfl
  · intro first m h1 h2 h3 h4 h5
    unfold pop_heading
    rw [h1, h2]
    cases hdg : dictGet first.attrib "level" with
    | none => rw [hdg] at h4; exact absurd h4 (by simp)
    | some v =>
      rw [hdg] at h4
      simp only [Option.some_bind] at h4
      simp only [Bool.false_eq_true, if_false, h3, if_true, hdg, h4, h5]
      split
      · rfl
      · rfl
  · intro first m h1 h2 h3 h4 h5
    unfold pop_heading
    rw [h1, h2]
    cases hdg : dictGet first.attrib "level" with
    | none => rw [hdg] at h4; exact absurd h4 (by simp)
    | some v =>
      rw [hdg] at h4
      simp only [Option.some_bind] at h4
      simp only [Bool.false_eq_true, if_false, h3, if_true, hdg, h4, h5]
      rfl
  · intro first h1 h2 h3
    unfold pop_heading
    rw [h1, h2]
    simp only [Bool.false_eq_true, if_false, h3, ite_false]
    rfl
  · intro h1 h2
    unfold pop_heading
    rw [h1, h2]
    simp only [Bool.false_eq_true, if_false]
    rfl

/-- C7 (witness): the amended theorem applied to a root with a level-2
heading whose tail is a lone (whitespace) newline — the tail is dropped —
and to the empty root. -/
theorem pop_heading_amended_witness :
    pop_heading (-1) (Elem.mk "zim-tree" [] none none (.cons
        (.mk "h" [("level", .i 2)] (some (pys "T")) (some (pys "\n")) .nil) .nil)) =
      .ok (.pair (some (pys "T")) (some 2), Elem.mk "zim-tree" [] none none .nil) ∧
    pop_heading 3 emptyRoot = .ok (.bareNone, emptyRoot) := by
  constructor
  · have h := (pop_heading_amended (-1) (Elem.mk "zim-tree" [] none none (.cons
        (.mk "h" [("level", .i 2)] (some (pys "T")) (some (pys "\n")) .nil) .nil))).2.1
      (.mk "h" [("level", .i 2)] (some (pys "T")) (some (pys "\n")) .nil) 2
      (by decide) (by decide) (by decide) (by decide) (by decide)
    simpa using h
  · exact (pop_heading_amended 3 emptyRoot).2.2.2.2 (by decide) (by decide)

/-! ## C6 — early stop (`VisitorStop`) in `visit` and `dump` -/

/-- C6 (counterexample): `DumperClass.dump` with a visitor that raises the
stop signal on the third node visited does *not* return the partial output:
the `assert len(self._context) == 1` in `dump` fires (the stop left the root
frame and one element frame open) and the dump aborts. -/
theorem dump_early_stop_aborts :
    dumpStopAt toyFmt 3 c6tree = .error "Unclosed tags on tree" := by decide

/-- C6 (amended): `ParseTree.visit` itself handles the stop signal cleanly —
a read-only counting visitor that stops at its third node terminates without
an error and without touching the tree — but `DumperClass.dump` then fails
its context-stack assertion instead of returning the partial output, while
the same dump without the stop succeeds. -/
theorem visit_early_stop_clean :
    Elem.visit (countStopVisitor 3) 0 c6tree = .ok 3 ∧
    dumpStopAt toyFmt 3 c6tree = .error "Unclosed tags on tree" ∧
    dumperDump toyFmt c6tree =
      .ok [pys "<P>x\n", pys "</P><P>y\n", pys "</P><P>z\n", pys "</P>"] := by decide

/-! ## C2 — emptiness repair on `end` -/

/-- C2: closing an empty non-void element removes it.  Concretely: after a
paragraph sibling, `start(emphasis); end(emphasis)` leaves the tree exactly
as it would have been without the pair (no emphasis node, surrounding text
unchanged), while an empty `object` is retained.  In general, for any state
about to close an empty (childless, whitespace-or-no-text), non-`img`,
non-`object` element below the root with nothing pending to flush, `end`
drops the element, reattaches its whitespace text to the previous sibling's
tail (or the parent's text), and transfers that sibling tail (or parent
text) into the pending-data buffer for re-flushing at the original position. -/
theorem empty_element_purge :
    (buildFromEvents
        [.start "zim-tree" none, .start "p" none, .data (pys "x"), .endTag "p",
         .start "emphasis" none, .endTag "emphasis", .endTag "zim-tree"] =
      buildFromEvents
        [.start "zim-tree" none, .start "p" none, .data (pys "x"), .endTag "p",
         .endTag "zim-tree"] ∧
     buildFromEvents
        [.start "zim-tree" none, .start "p" none, .data (pys "x"), .endTag "p",
         .start "emphasis" none, .endTag "emphasis", .endTag "zim-tree"] =
      .ok (Elem.mk "zim-tree" [] none none
        (.cons (.mk "p" [] (some (pys "x\n")) (some (pys "\n")) .nil) .nil)) ∧
     Elem.collectTag "emphasis" (Elem.mk "zim-tree" [] none none
        (.cons (.mk "p" [] (some (pys "x\n")) (some (pys "\n")) .nil) .nil)) = [] ∧
     buildFromEvents
        [.start "zim-tree" none, .start "p" none, .data (pys "x"), .endTag "p",
         .start "object" none, .endTag "object", .endTag "zim-tree"] =
      .ok (Elem.mk "zim-tree" [] none none
        (.cons (.mk "p" [] (some (pys "x\n")) (some (pys "\n")) .nil)
          (.cons (.mk "object" [] none none .nil) .nil)))) ∧
    (∀ (s : BState) (tag : String) (top par : Elem) (rest : List Elem),
      s.stack = top :: par :: rest →
      top.tag = tag →
      tag ≠ "_ignore_" → tag ≠ "img" → tag ≠ "object" →
      top.childrenL = .nil →
      (truthy top.text && !pyIsSpace (top.text.getD [])) = false →
      (if tag = "p" || tag = "pre" then OldParseTreeBuilder.flush 1 s
       else OldParseTreeBuilder.flush 0 s) = .ok s →
      OldParseTreeBuilder.end_ tag s = .ok (
        let par1 := if truthy top.text && pyIsSpace (top.text.getD []) then
            appendToPreviousE par (top.text.getD []) else par
        match par1.childrenL.lastGet with
        | some lastC =>
          match lastC.tl with
          | some tlv =>
            { s with stack := par1.withChildren (par1.childrenL.setLast (lastC.withTl none)) :: rest,
                     lastTop := false, tailM := true, dataB := [tlv] }
          | none => { s with stack := par1 :: rest, lastTop := false, tailM := true }
        | none =>
          match par1.text with
          | some txv =>
            { s with stack := (par1.withText none) :: rest,
                     lastTop := true, tailM := true, dataB := [txv] }
          | none => { s with stack := par1 :: rest, lastTop := true, tailM := true })) := by
  refine ⟨⟨rfl, rfl, rfl, rfl⟩, ?_⟩
  intro s tag top par rest hstk htag hig himg hobj hkids htxt hflush
  have htxt2 : truthy top.text = false ∨ pyIsSpace (top.text.getD []) = true := by
    cases htt : truthy top.text with
    | false => exact Or.inl rfl
    | true =>
      rw [htt, Bool.true_and, Bool.not_eq_false'] at htxt
      exact Or.inr htxt
  have hcond : (!(par :: rest).isEmpty &&
      !(tag = "img" || tag = "object" ||
        truthy top.text && !pyIsSpace (top.text.getD []) ||
        !top.childrenL.isNil)) = true := by
    simp [himg, hobj, hkids, ElemList.isNil]
    exact htxt2
  unfold OldParseTreeBuilder.end_
  rw [if_neg hig]
  simp only [pure_bind]
  by_cases hpp : (decide (tag = "p") || decide (tag = "pre")) = true
  · rw [if_pos hpp] at hflush
    rw [if_pos hpp, hflush]
    simp only [bind, Except.bind]
    rw [hstk]
    simp only
    rw [if_neg (show ¬ top.tag ≠ tag from fun h => h htag)]
    rw [hcond]
    simp only [if_true]
    by_cases hws : (truthy top.text && pyIsSpace (top.text.getD [])) = true
    · rw [if_pos hws]
      cases hlg : (appendToPreviousE par (top.text.getD [])).childrenL.lastGet with
      | some lastC =>
        simp only
        cases hlt : lastC.tl with
        | some tlv => rfl
        | none => rfl
      | none =>
        simp only
        cases htv : (appendToPreviousE par (top.text.getD [])).text with
        | some txv => rfl
        | none => rfl
    · rw [if_neg hws]
      cases hlg : par.childrenL.lastGet with
      | some lastC =>
        simp only
        cases hlt : lastC.tl with
        | some tlv => rfl
        | none => rfl
      | none =>
        simp only
        cases htv : par.text with
        | some txv => rfl
        | none => rfl
  · rw [if_neg hpp] at hflush
    rw [if_neg hpp, hflush]
    simp only [bind, Except.bind]
    rw [hstk]
    simp only
    rw [if_neg (show ¬ top.tag ≠ tag from fun h => h htag)]
    rw [hcond]
    simp only [if_true]
    by_cases hws : (truthy top.text && pyIsSpace (top.text.getD [])) = true
    · rw [if_pos hws]
      cases hlg : (appendToPreviousE par (top.text.getD [])).childrenL.lastGet with
      | some lastC =>
        simp only
        cases hlt : lastC.tl with
        | some tlv => rfl
        | none => rfl
      | none =>
        simp only
        cases htv : (appendToPreviousE par (top.text.getD [])).text with
        | some txv => rfl
        | none => rfl
    · rw [if_neg hws]
      cases hlg : par.childrenL.lastGet with
      | some lastC =>
        simp only
        cases hlt : lastC.tl with
        | some tlv => rfl
        | none => rfl
      | none =>
        simp only
        cases htv : par.text with
        | some txv => rfl
        | none => rfl

/-- C2 (witness): the general purge step applied to the concrete state just
before `end(emphasis)` in the scenario (paragraph sibling with tail `"\n"`):
the emphasis frame is dropped and the sibling's tail moves to the buffer. -/
theorem empty_element_purge_witness :
    OldParseTreeBuilder.end_ "emphasis"
      ⟨[Elem.mk "emphasis" [] none none .nil,
        Elem.mk "zim-tree" [] none none
          (.cons (.mk "p" [] (some (pys "x\n")) (some (pys "\n")) .nil) .nil)],
        none, true, false, [], 1⟩ =
      .ok ⟨[Elem.mk "zim-tree" [] none none
              (.cons (.mk "p" [] (some (pys "x\n")) none .nil) .nil)],
           none, false, true, [pys "\n"], 1⟩ := by
  have h := empty_element_purge.2
    ⟨[Elem.mk "emphasis" [] none none .nil,
      Elem.mk "zim-tree" [] none none
        (.cons (.mk "p" [] (some (pys "x\n")) (some (pys "\n")) .nil) .nil)],
      none, true, false, [], 1⟩
    "emphasis" (Elem.mk "emphasis" [] none none .nil)
    (Elem.mk "zim-tree" [] none none
      (.cons (.mk "p" [] (some (pys "x\n")) (some (pys "\n")) .nil) .nil)) []
    rfl rfl (by decide) (by decide) (by decide) rfl (by decide) rfl
  exact h.trans rfl

/-! ## C3 — blank-line enforcement before headings -/

theorem takeWhile_replicate_append (y : PyStr) :
    ∀ k : Nat, ((List.replicate k '\n' ++ y).takeWhile (fun c => c = '\n')) =
      List.replicate k '\n' ++ y.takeWhile (fun c => c = '\n') := by
  intro k
  induction k with
  | zero => rfl
  | succ k ih =>
    rw [List.replicate_succ, List.cons_append, List.takeWhile_cons_of_pos (by decide), ih]
    rfl

theorem trailNl_append_nl (s : PyStr) (k : Nat) :
    trailNl (s ++ nlRep k) = trailNl s + k := by
  unfold trailNl nlRep
  rw [List.reverse_append, List.reverse_replicate, takeWhile_replicate_append,
      List.length_append, List.length_replicate]
  omega

/-- C3: blank-line enforcement.  (1) The concrete scenario: paragraph `"x"`
then a level-1 heading `"T"` yields `p` with text `"x\n"` and tail `"\n"` —
exactly two newline characters between `"x"` and the heading.  (2) `start`
on a heading flushes with `need_eol = 2`.  (3) The flush's padding step pads
any nonempty pending text to at least two trailing newlines and records a
trailing-newline count of at least two, while the builder's initial count of
`2` exempts the first top-level element (no padding on empty text). -/
theorem heading_blank_line :
    (buildFromEvents c3events = .ok (Elem.mk "zim-tree" [] none none (.cons
        (.mk "p" [] (some (pys "x\n")) (some (pys "\n")) .nil) (.cons
        (.mk "h" [("level", .i 1)] (some (pys "T")) (some (pys "\n")) .nil) .nil))) ∧
      trailNl (pys "x\n" ++ pys "\n") = 2) ∧
    (∀ (a : Option Attrib) (s : BState),
      OldParseTreeBuilder.start "h" a s =
        (OldParseTreeBuilder.flush 2 s).bind (OldParseTreeBuilder.startPost "h" a)) ∧
    (∀ (txt : PyStr) (seen : Int), txt ≠ [] →
      2 ≤ ((trailNl (fixTrailing txt seen 2).1 : Int))) ∧
    (∀ (txt : PyStr) (seen : Int), 0 ≤ seen → 2 ≤ (fixTrailing txt seen 2).2) ∧
    fixTrailing [] 2 2 = ([], 2) := by
  refine ⟨⟨rfl, rfl⟩, ?_, ?_, ?_, rfl⟩
  · intro a s
    rfl
  · intro txt seen htxt
    cases txt with
    | nil => exact absurd rfl htxt
    | cons c cs =>
      unfold fixTrailing
      simp only [List.isEmpty_cons, if_false, Bool.false_eq_true]
      by_cases hgt : (2 : Int) > (trailNl (c :: cs) : Int)
      · rw [if_pos hgt]
        have h2 : (2 : Int) ≤ ((trailNl ((c :: cs) ++ nlRep (2 - (trailNl (c :: cs) : Int)).toNat)) : Int) := by
          rw [trailNl_append_nl]
          push_cast
          omega
        exact h2
      · rw [if_neg hgt]
        have h2 : (2 : Int) ≤ ((trailNl (c :: cs)) : Int) := by omega
        exact h2
  · intro txt seen hseen
    unfold fixTrailing
    by_cases he : txt.isEmpty
    · simp only [he, if_true]
      by_cases hgt : (2 : Int) > seen
      · rw [if_pos hgt]
      · rw [if_neg hgt]; omega
    · simp only [he, Bool.false_eq_true, if_false]
      by_cases hgt : (2 : Int) > (trailNl txt : Int)
      · rw [if_pos hgt]
      · rw [if_neg hgt]; omega

/-- C3 (witness): the padding facts applied at `"x"` (padded to `"x\n\n"`). -/
theorem heading_blank_line_witness :
    2 ≤ ((trailNl (fixTrailing (pys "x") 0 2).1 : Int)) ∧
    2 ≤ (fixTrailing (pys "x") 0 2).2 ∧
    OldParseTreeBuilder.start "h" none initB =
      (OldParseTreeBuilder.flush 2 initB).bind (OldParseTreeBuilder.startPost "h" none) := by
  refine ⟨heading_blank_line.2.2.1 (pys "x") 0 (by decide),
          heading_blank_line.2.2.2.1 (pys "x") 0 (by decide),
          heading_blank_line.2.1 none initB⟩

/-! ## C5 — `cleanup_headings` -/

theorem dropWhile_dropWhile {α : Type} (p q : α → Bool)
    (hpq : ∀ a, q a = true → p a = true) :
    ∀ xs : List α, (xs.dropWhile q).dropWhile p = xs.dropWhile p := by
  intro xs
  induction xs with
  | nil => rfl
  | cons a xs ih =>
    by_cases hq : q a = true
    · rw [List.dropWhile_cons_of_pos hq, ih, List.dropWhile_cons_of_pos (hpq a hq)]
    · rw [List.dropWhile_cons_of_neg (by simpa using hq)]

theorem find?_append_none {α : Type} {p : α → Bool} :
    ∀ {xs : List α} (ys : List α), xs.find? p = none → (xs ++ ys).find? p = ys.find? p := by
  intro xs
  induction xs with
  | nil => intro ys _; rfl
  | cons a xs ih =>
    intro ys h
    rw [List.find?_cons] at h
    cases hp : p a with
    | true => rw [hp] at h; exact absurd h (by simp)
    | false =>
      rw [hp] at h
      rw [List.cons_append, List.find?_cons, hp]
      exact ih ys h

theorem dictGet_map_set : ∀ (a : Attrib) (k : String) (v : AVal),
    (a.find? (fun p => p.1 = k)).isSome = true →
    dictGet (a.map (fun p => if p.1 = k then (k, v) else p)) k = some v := by
  intro a k v
  induction a with
  | nil => intro h; simp at h
  | cons p ps ih =>
    intro h
    by_cases hk : p.1 = k
    · rw [List.map_cons, if_pos hk]
      simp [dictGet, List.find?_cons]
    · rw [List.map_cons, if_neg hk]
      simp only [dictGet, List.find?_cons, hk] at ih ⊢
      simp only [List.find?_cons, hk] at h
      simp only [decide_eq_true_eq, hk] at *
      exact ih h

theorem dictGet_dictSet : ∀ (a : Attrib) (k : String) (v : AVal),
    dictGet (dictSet a k v) k = some v := by
  intro a k v
  unfold dictSet
  by_cases h : (a.find? (fun p => p.1 = k)).isSome
  · rw [if_pos h]
    exact dictGet_map_set a k v h
  · rw [if_neg h]
    have hn : a.find? (fun p => p.1 = k) = none := by
      cases hf : a.find? (fun p => p.1 = k) with
      | none => rfl
      | some q => rw [hf] at h; simp at h
    unfold dictGet
    rw [find?_append_none _ hn]
    simp [List.find?_cons]

/-- One `cleanup_headings` step, expressed through the nearest smaller
previous heading: the stack's post-pop top *is* the nearest enclosing
ancestor. -/
theorem cleanupStep_spec (offset mx c : Int) (done path : List (Int × Int))
    (hInv : ∀ d : Int, (path.dropWhile (fun q => decide (q.1 ≥ d))).head? =
      done.find? (fun p => decide (p.1 < d))) :
    cleanupStep offset mx path c =
      (specA offset mx done c,
       (c, specA offset mx done c) :: path.dropWhile (fun q => decide (q.1 ≥ c))) := by
  have hc := hInv c
  unfold cleanupStep specA nslAssigned
  cases hd : path.dropWhile (fun q => decide (q.1 ≥ c)) with
  | nil =>
    rw [hd] at hc
    rw [← hc]
    rfl
  | cons q qs =>
    rw [hd] at hc
    rw [← hc]
    rfl

/-- The stack invariant is preserved by pushing the new `(level, assigned)`
pair onto the popped stack. -/
theorem inv_maintained (c a : Int) (done path : List (Int × Int))
    (hInv : ∀ d : Int, (path.dropWhile (fun q => decide (q.1 ≥ d))).head? =
      done.find? (fun p => decide (p.1 < d))) :
    ∀ d : Int,
      (((c, a) :: path.dropWhile (fun q => decide (q.1 ≥ c))).dropWhile
          (fun q => decide (q.1 ≥ d))).head? =
      (((c, a) :: done).find? (fun p => decide (p.1 < d))) := by
  intro d
  by_cases hcd : d ≤ c
  · rw [List.dropWhile_cons_of_pos (by simpa using hcd)]
    rw [dropWhile_dropWhile _ _ (fun x hx => by
      simp only [decide_eq_true_eq] at hx ⊢
      exact le_trans hcd hx)]
    rw [hInv d, List.find?_cons]
    have : ¬ c < d := not_lt.2 hcd
    simp [this]
  · have hlt : c < d := lt_of_not_le hcd
    rw [List.dropWhile_cons_of_neg (by simpa using not_le.2 hlt)]
    rw [List.find?_cons]
    simp [hlt]

/-- `cleanup_headings`' stack algorithm computes exactly the
nearest-enclosing-ancestor assignment. -/
theorem assign_eq_spec (offset mx : Int) :
    ∀ (ls : List Int) (done path : List (Int × Int)),
      (∀ d : Int, (path.dropWhile (fun q => decide (q.1 ≥ d))).head? =
        done.find? (fun p => decide (p.1 < d))) →
      (assignLevels offset mx path ls).1 = specAssign offset mx done ls := by
  intro ls
  induction ls with
  | nil => intro done path _; rfl
  | cons c rest ih =>
    intro done path hInv
    have hstep := cleanupStep_spec offset mx c done path hInv
    have hrec := ih ((c, specA offset mx done c) :: done)
      ((c, specA offset mx done c) :: path.dropWhile (fun q => decide (q.1 ≥ c)))
      (inv_maintained c (specA offset mx done c) done path hInv)
    simp only [assignLevels, specAssign, hstep]
    exact congrArg _ hrec

/-- All levels assigned by the nearest-ancestor scheme with `offset = 0`,
`max = 6` lie in `1..6`. -/
theorem specAssign_bounds :
    ∀ (ls : List Int) (done : List (Int × Int)),
      (∀ p ∈ done, 1 ≤ p.2 ∧ p.2 ≤ 6) →
      ∀ a ∈ specAssign 0 6 done ls, 1 ≤ a ∧ a ≤ 6 := by
  intro ls
  induction ls with
  | nil => intro done _ a ha; simp [specAssign] at ha
  | cons c rest ih =>
    intro done hdone a ha
    have hA : 1 ≤ specA 0 6 done c ∧ specA 0 6 done c ≤ 6 := by
      cases hn : nslAssigned done c with
      | none => simp only [specA, hn]; norm_num
      | some b =>
        have hb : 1 ≤ b ∧ b ≤ 6 := by
          unfold nslAssigned at hn
          cases hf : done.find? (fun p => decide (p.1 < c)) with
          | none => rw [hf] at hn; exact absurd hn (by simp)
          | some p =>
            rw [hf] at hn
            have hb2 : p.2 = b := by simpa using hn
            have hmem := List.mem_of_find?_eq_some hf
            have := hdone p hmem
            omega
        obtain ⟨hb1, hb2⟩ := hb
        have hspec : specA 0 6 done c = if b + 1 > 6 then 6 else b + 1 := by
          simp only [specA, hn]
        rw [hspec]
        by_cases hgt : b + 1 > 6
        · rw [if_pos hgt]; constructor <;> omega
        · rw [if_neg hgt]; constructor <;> omega
    simp only [specAssign, List.mem_cons] at ha
    cases ha with
    | inl h => rw [h]; exact hA
    | inr h =>
      exact ih ((c, specA 0 6 done c) :: done)
        (by
          intro p hp
          cases List.mem_cons.1 hp with
          | inl hEq => rw [hEq]; exact hA
          | inr hm => exact hdone p hm) a h

theorem assignLevels_append (offset mx : Int) :
    ∀ (xs ys : List Int) (path : List (Int × Int)),
      assignLevels offset mx path (xs ++ ys) =
        ((assignLevels offset mx path xs).1 ++
           (assignLevels offset mx (assignLevels offset mx path xs).2 ys).1,
         (assignLevels offset mx (assignLevels offset mx path xs).2 ys).2) := by
  intro xs
  induction xs with
  | nil => intro ys path; rfl
  | cons c rest ih =>
    intro ys path
    simp only [List.cons_append, assignLevels, List.append_eq, ih]

mutual
/-- `cleanup_headings`' tree traversal agrees with the list algorithm
applied to the document-order heading levels. -/
theorem cleanupH_levels (offset mx : Int) :
    ∀ (e : Elem) (path : List (Int × Int)), Elem.hWF e = true →
      ∃ e', Elem.cleanupH offset mx path e =
          .ok (e', (assignLevels offset mx path e.hLvls).2) ∧
        e'.hLvls = (assignLevels offset mx path e.hLvls).1
  | .mk t a x l c, path, hwf => by
    rw [Elem.hWF] at hwf
    simp only [Bool.and_eq_true] at hwf
    have hwfc : ElemList.hWF c = true := hwf.2
    by_cases ht : t = "h"
    · have hsome : (((dictGet a "level").bind AVal.toInt)).isSome = true := by
        have := hwf.1
        rw [if_pos ht] at this
        exact this
      obtain ⟨lvl, hlvl⟩ := Option.isSome_iff_exists.1 hsome
      obtain ⟨v, hv, hvi⟩ := Option.bind_eq_some.1 hlvl
      have hLv : Elem.hLvls (.mk t a x l c) = lvl :: ElemList.hLvls c := by
        rw [Elem.hLvls, if_pos ht, hlvl]
        rfl
      cases hcs : cleanupStep offset mx path lvl with
      | mk A P2 =>
        obtain ⟨c', hc', hcl⟩ := cleanupHL_levels offset mx c P2 hwfc
        have hAsg : assignLevels offset mx path (Elem.hLvls (.mk t a x l c)) =
            (A :: (assignLevels offset mx P2 (ElemList.hLvls c)).1,
             (assignLevels offset mx P2 (ElemList.hLvls c)).2) := by
          rw [hLv]
          simp only [assignLevels, hcs]
        refine ⟨.mk t (dictSet a "level" (.i A)) x l c', ?_, ?_⟩
        · rw [hAsg]
          simp only [Elem.cleanupH, if_pos ht, hv, hvi, hcs]
          rw [hc']
          rfl
        · rw [hAsg]
          rw [Elem.hLvls, if_pos ht, dictGet_dictSet]
          rw [hcl]
          rfl
    · have hLv : Elem.hLvls (.mk t a x l c) = ElemList.hLvls c := by
        rw [Elem.hLvls, if_neg ht, List.nil_append]
      obtain ⟨c', hc', hcl⟩ := cleanupHL_levels offset mx c path hwfc
      refine ⟨.mk t a x l c', ?_, ?_⟩
      · rw [hLv]
        simp only [Elem.cleanupH, if_neg ht]
        rw [hc']
        rfl
      · rw [hLv, Elem.hLvls, if_neg ht, List.nil_append, hcl]
theorem cleanupHL_levels (offset mx : Int) :
    ∀ (es : ElemList) (path : List (Int × Int)), ElemList.hWF es = true →
      ∃ es', ElemList.cleanupH offset mx path es =
          .ok (es', (assignLevels offset mx path es.hLvls).2) ∧
        es'.hLvls = (assignLevels offset mx path es.hLvls).1
  | .nil, path, _ => ⟨.nil, rfl, rfl⟩
  | .cons e es, path, hwf => by
    rw [ElemList.hWF] at hwf
    simp only [Bool.and_eq_true] at hwf
    have h1 := hwf.1
    have h2 := hwf.2
    obtain ⟨e', he', hel⟩ := cleanupH_levels offset mx e path h1
    obtain ⟨es', hes', hesl⟩ := cleanupHL_levels offset mx es
      (assignLevels offset mx path e.hLvls).2 h2
    have hApp : assignLevels offset mx path (ElemList.hLvls (.cons e es)) =
        ((assignLevels offset mx path e.hLvls).1 ++
           (assignLevels offset mx (assignLevels offset mx path e.hLvls).2 es.hLvls).1,
         (assignLevels offset mx (assignLevels offset mx path e.hLvls).2 es.hLvls).2) := by
      rw [ElemList.hLvls, assignLevels_append]
    refine ⟨.cons e' es', ?_, ?_⟩
    · rw [hApp]
      simp only [ElemList.cleanupH, he', hes', bind, Except.bind]
      rfl
    · rw [hApp, ElemList.hLvls, hel, hesl]
end

/-- C5 (counterexample): on seven headings with original levels 1..7 and
`cleanup_headings(0, 6)`, the last heading is clamped to level 6 while its
nearest enclosing ancestor (original level 6) is also assigned 6 — so the
claimed "exceeds ... by exactly 1" fails at this tree. -/
theorem cleanup_headings_claim_false :
    (cleanup_headings 0 6 t7heads).map Elem.hLvls = .ok [1, 2, 3, 4, 5, 6, 6] ∧
    t7heads.hLvls = [1, 2, 3, 4, 5, 6, 7] ∧
    claimStrict [] [1, 2, 3, 4, 5, 6, 7] [1, 2, 3, 4, 5, 6, 6] = false := by decide

/-- C5 (amended): `cleanup_headings(offset, max)` visits every `'h'` element
in document order with the `(original, assigned)` stack and assigns each
heading the assigned level of its nearest enclosing ancestor heading (the
nearest previous heading with smaller original level) plus one — `offset+1`
with no ancestor — *clamped to max*, so with `(0, 6)` every assigned level
lies in `1..6` and exceeds the ancestor's by exactly one except when the
clamp makes them equal. -/
theorem cleanup_headings_amended :
    (∀ (offset mx : Int) (root : Elem), Elem.hWF root = true →
      ∃ root', cleanup_headings offset mx root = .ok root' ∧
        root'.hLvls = specAssign offset mx [] root.hLvls) ∧
    (∀ (root root' : Elem), Elem.hWF root = true →
      cleanup_headings 0 6 root = .ok root' →
      ∀ lv ∈ root'.hLvls, 1 ≤ lv ∧ lv ≤ 6) := by
  have key : ∀ (offset mx : Int) (root : Elem), Elem.hWF root = true →
      ∃ root', cleanup_headings offset mx root = .ok root' ∧
        root'.hLvls = specAssign offset mx [] root.hLvls := by
    intro offset mx root hwf
    obtain ⟨e', he', hel⟩ := cleanupH_levels offset mx root [] hwf
    refine ⟨e', ?_, ?_⟩
    · unfold cleanup_headings
      rw [he']
      rfl
    · rw [hel]
      exact assign_eq_spec offset mx root.hLvls [] [] (fun d => rfl)
  refine ⟨key, ?_⟩
  intro root root' hwf hok lv hmem
  obtain ⟨r2, hr2, hr2l⟩ := key 0 6 root hwf
  rw [hok] at hr2
  have hEq : root' = r2 := Except.ok.inj hr2
  subst hEq
  refine specAssign_bounds root.hLvls [] (by intro p hp; simp at hp) lv ?_
  rw [← hr2l]
  exact hmem

/-- C5 (witness): the amended theorem applied to the 1..7 heading tree. -/
theorem cleanup_headings_amended_witness :
    ∃ root', cleanup_headings 0 6 t7heads = .ok root' ∧
      root'.hLvls = specAssign 0 6 [] t7heads.hLvls :=
  cleanup_headings_amended.1 0 6 t7heads (by decide)

/-! ## C10 — `ParseTree.extend` (heap model) -/

theorem heapGet_set_self {h : Heap} {i : Nat} {n : HNode} (hl : i < h.length) :
    heapGet (heapSet h i n) i = some n := by
  simp only [heapGet, heapSet, List.get?_eq_getElem?]
  exact List.getElem?_set_eq_of_lt n hl

theorem heapGet_set_other {h : Heap} {i j : Nat} {n : HNode} (hij : i ≠ j) :
    heapGet (heapSet h i n) j = heapGet h j := by
  simp only [heapGet, heapSet, List.get?_eq_getElem?]
  exact List.getElem?_set_ne hij

theorem heapGet_lt {h : Heap} {i : Nat} {n : HNode} (hg : heapGet h i = some n) :
    i < h.length := by
  by_contra hlt
  rw [heapGet, List.get?_eq_getElem?, List.getElem?_eq_none (Nat.le_of_not_lt hlt)] at hg
  exact Option.noConfusion hg

theorem heapSet_length {h : Heap} {i : Nat} {n : HNode} :
    (heapSet h i n).length = h.length := by
  simp [heapSet]

/-- C10: `extend` (also bound to `+`) returns the receiving tree itself, in
the mutated heap; the argument tree's root node is bit-for-bit untouched, and
its child ids are appended — not copied — onto the receiver's child list, so
after the call the very same node objects are children of both roots.
(Hypotheses: the two roots are distinct objects and the argument is not the
receiver's last child, i.e. genuinely distinct trees.) -/
theorem ptExtend_in_place (h : Heap) (tid uid : Nat) (my other : HNode)
    (hmy : heapGet h tid = some my) (hother : heapGet h uid = some other)
    (hne : tid ≠ uid) (hlast : my.childIds.getLast? ≠ some uid) :
    ∃ h2 my2, ptExtend h tid uid = some (h2, tid) ∧
      ptAdd h tid uid = ptExtend h tid uid ∧
      heapGet h2 uid = some other ∧
      heapGet h2 tid = some my2 ∧
      my2.childIds = my.childIds ++ other.childIds ∧
      my2.tag = my.tag ∧ my2.attrib = my.attrib := by
  have htl : tid < h.length := heapGet_lt hmy
  -- the intermediate heap after the text-merge step
  set h1 : Heap :=
    (if truthy other.text then
      match my.childIds.getLast? with
      | some lid =>
        match heapGet h lid with
        | some lastN =>
          heapSet h lid { lastN with tl := some (orCat lastN.tl (other.text.getD [])) }
        | none => h
      | none =>
        heapSet h tid { my with text := some (orCat my.text (other.text.getD [])) }
     else h) with hh1
  have hKeep : heapGet h1 uid = some other ∧
      (∃ my1, heapGet h1 tid = some my1 ∧ my1.childIds = my.childIds ∧
        my1.tag = my.tag ∧ my1.attrib = my.attrib) ∧ h1.length = h.length := by
    rw [hh1]
    by_cases htx : truthy other.text
    · rw [if_pos htx]
      cases hg : my.childIds.getLast? with
      | none =>
        dsimp only
        refine ⟨by rw [heapGet_set_other hne]; exact hother,
                ⟨_, heapGet_set_self htl, rfl, rfl, rfl⟩, heapSet_length⟩
      | some lid =>
        dsimp only
        have hlu : lid ≠ uid := fun hEq => hlast (hEq ▸ hg)
        cases hgl : heapGet h lid with
        | none => exact ⟨hother, ⟨my, hmy, rfl, rfl, rfl⟩, rfl⟩
        | some lastN =>
          dsimp only
          refine ⟨by rw [heapGet_set_other hlu]; exact hother, ?_, heapSet_length⟩
          by_cases hlt : lid = tid
          · subst hlt
            have hml : my = lastN := by rw [hmy] at hgl; exact Option.some_inj.1 hgl
            subst hml
            exact ⟨_, heapGet_set_self htl, rfl, rfl, rfl⟩
          · exact ⟨my, by rw [heapGet_set_other hlt]; exact hmy, rfl, rfl, rfl⟩
    · rw [if_neg htx]
      exact ⟨hother, ⟨my, hmy, rfl, rfl, rfl⟩, rfl⟩
  obtain ⟨h1u, ⟨my1, h1t, hcid, htag, hattr⟩, hlen⟩ := hKeep
  have hEval : ptExtend h tid uid =
      some (heapSet h1 tid { my1 with childIds := my1.childIds ++ other.childIds }, tid) := by
    unfold ptExtend
    rw [hmy, hother]
    simp only [← hh1]
    rw [h1t, h1u]
  refine ⟨_, { my1 with childIds := my1.childIds ++ other.childIds }, hEval, rfl, ?_, ?_, ?_, ?_, ?_⟩
  · rw [heapGet_set_other hne]; exact h1u
  · exact heapGet_set_self (by rw [hlen]; exact htl)
  · simp [hcid]
  · simp [htag]
  · simp [hattr]

/-- C10 (witness): the theorem applied to the concrete heap `h10`. -/
theorem ptExtend_in_place_witness :
    ∃ h2 my2, ptExtend h10 0 2 = some (h2, 0) ∧
      ptAdd h10 0 2 = ptExtend h10 0 2 ∧
      heapGet h2 2 = some { tag := "zim-tree", attrib := [], text := some (pys "t"),
                            tl := none, childIds := [3] } ∧
      heapGet h2 0 = some my2 ∧
      my2.childIds = [1] ++ [3] ∧ my2.tag = "zim-tree" ∧ my2.attrib = [] := by
  have h := ptExtend_in_place h10 0 2
    { tag := "zim-tree", attrib := [], text := none, tl := none, childIds := [1] }
    { tag := "zim-tree", attrib := [], text := some (pys "t"), tl := none, childIds := [3] }
    (by decide) (by decide) (by decide) (by decide)
  simpa using h

/-! ## Supporting lemmas for C1 (split-loop analysis) -/


theorem truthy_some (l : PyStr) : truthy (some l) = !l.isEmpty := rfl

theorem toList_append : ∀ (cs : ElemList) (e : Elem),
    (cs.append e).toList = cs.toList ++ [e]
  | .nil, e => rfl
  | .cons f fs, e => by
    rw [ElemList.append, ElemList.toList, ElemList.toList, toList_append fs e]
    rfl

theorem lastGet_eq_getLast? : ∀ (cs : ElemList), cs.lastGet = cs.toList.getLast?
  | .nil => rfl
  | .cons e .nil => rfl
  | .cons e (.cons f fs) => by
    rw [ElemList.lastGet, lastGet_eq_getLast? (.cons f fs)]
    show (f :: fs.toList).getLast? = (e :: f :: fs.toList).getLast?
    rw [List.getLast?_cons_cons]

theorem toList_setLast : ∀ (cs : ElemList) (e : Elem),
    (cs.setLast e).toList = if cs.toList.isEmpty then [] else cs.toList.dropLast ++ [e]
  | .nil, e => rfl
  | .cons f .nil, e => rfl
  | .cons f (.cons g gs), e => by
    rw [ElemList.setLast, ElemList.toList, toList_setLast (.cons g gs) e]
    show f :: ((g :: gs.toList).dropLast ++ [e]) = (f :: g :: gs.toList).dropLast ++ [e]
    rfl

theorem startsNl_append (s t : PyStr) (h : startsNl s = true) :
    startsNl (s ++ t) = true := by
  cases s with
  | nil => exact absurd h (by decide)
  | cons c cs =>
    by_cases hc : c = '\n'
    · subst hc; rfl
    · have hf : startsNl (c :: cs) = false := by
        unfold startsNl
        split
        · rename_i x heq
          injection heq with h1 h2
          exact absurd h1 hc
        · rfl
      rw [hf] at h
      exact absurd h (by decide)

theorem rstripNl_of_trailNl_zero (s : PyStr) (h : trailNl s = 0) : rstripNl s = s := by
  unfold trailNl at h
  unfold rstripNl
  rw [List.length_eq_zero] at h
  cases hrev : s.reverse with
  | nil =>
    have hs : s = ([] : PyStr).reverse := by rw [← hrev, List.reverse_reverse]
    rw [hs]
    rfl
  | cons c cs =>
    rw [hrev] at h
    by_cases hc : c = '\n'
    · subst hc
      simp [List.takeWhile_cons] at h
    · rw [List.dropWhile_cons, if_neg (by simp [hc])]
      have hs : s = (c :: cs).reverse := by rw [← hrev, List.reverse_reverse]
      rw [hs]

theorem splitNl_cons (c : Char) (rest : PyStr) :
    splitNl (c :: rest) = if c = '\n' then [] :: splitNl rest
      else match splitNl rest with | [] => [[c]] | l :: ls => (c :: l) :: ls := by
  by_cases hc : c = '\n'
  · subst hc
    rw [if_pos rfl]
    rfl
  · rw [if_neg hc]
    conv_lhs => unfold splitNl
    split
    · rename_i heq
      cases heq
    · rename_i x heq
      injection heq with h1 h2
      exact absurd h1 hc
    · rename_i y cc rr hx heq
      injection heq with h1 h2
      subst h1
      subst h2
      rfl

theorem splitNl_ne_nil : ∀ (s : PyStr), splitNl s ≠ []
  | [] => by simp [splitNl]
  | c :: rest => by
    rw [splitNl_cons]
    by_cases hc : c = '\n'
    · simp [hc]
    · rw [if_neg hc]
      cases hs : splitNl rest <;> simp

theorem splitNl_no_nl : ∀ (s l : PyStr), l ∈ splitNl s → '\n' ∉ l
  | [], l, hl => by
    simp [splitNl] at hl
    subst hl
    simp
  | c :: rest, l, hl => by
    rw [splitNl_cons] at hl
    by_cases hc : c = '\n'
    · rw [if_pos hc] at hl
      rcases List.mem_cons.1 hl with h1 | h2
      · subst h1; simp
      · exact splitNl_no_nl rest l h2
    · rw [if_neg hc] at hl
      cases hs : splitNl rest with
      | nil =>
        rw [hs] at hl
        simp at hl
        subst hl
        simp [hc]
        exact fun h => hc h.symm
      | cons l0 ls =>
        rw [hs] at hl
        rcases List.mem_cons.1 hl with h1 | h2
        · subst h1
          have h0 := splitNl_no_nl rest l0 (by rw [hs]; exact List.mem_cons_self _ _)
          simp [hc, h0]
          exact fun h => hc h.symm
        · exact splitNl_no_nl rest l (by rw [hs]; exact List.mem_cons_of_mem _ h2)

theorem splitNl_append_nl : ∀ (u : PyStr), splitNl (u ++ ['\n']) = splitNl u ++ [[]]
  | [] => rfl
  | c :: rest => by
    show splitNl (c :: (rest ++ ['\n'])) = _
    rw [splitNl_cons, splitNl_cons]
    by_cases hc : c = '\n'
    · rw [if_pos hc, if_pos hc, splitNl_append_nl rest]
      rfl
    · rw [if_neg hc, if_neg hc, splitNl_append_nl rest]
      cases hs : splitNl rest with
      | nil => exact absurd hs (splitNl_ne_nil rest)
      | cons l0 ls => simp

theorem splitNl_append_nlRep : ∀ (k : Nat) (u : PyStr),
    splitNl (u ++ nlRep k) = splitNl u ++ List.replicate k []
  | 0, u => by simp [nlRep]
  | k + 1, u => by
    have h1 : u ++ nlRep (k + 1) = (u ++ ['\n']) ++ nlRep k := by
      simp [nlRep, List.replicate_succ, List.append_assoc]
    rw [h1, splitNl_append_nlRep k (u ++ ['\n']), splitNl_append_nl,
      List.replicate_succ]
    simp

theorem rstrip_decomp (s : PyStr) : s = rstripNl s ++ nlRep (trailNl s) := by
  unfold rstripNl trailNl nlRep
  have h1 : List.takeWhile (fun c => decide (c = '\n')) s.reverse =
      List.replicate (List.takeWhile (fun c => decide (c = '\n')) s.reverse).length '\n' := by
    apply List.eq_replicate_of_mem
    intro b hb
    have := List.mem_takeWhile_imp hb
    simpa using this
  conv_lhs => rw [← List.reverse_reverse s,
    ← List.takeWhile_append_dropWhile (p := fun c => decide (c = '\n')) (l := s.reverse)]
  rw [List.reverse_append]
  congr 1
  conv_lhs => rw [h1]
  rw [List.reverse_replicate]

theorem filter_splitNl_rstrip (t : PyStr) :
    (splitNl t).filter lineKeep = (splitNl (rstripNl t)).filter lineKeep := by
  conv_lhs => rw [rstrip_decomp t]
  rw [splitNl_append_nlRep (trailNl t) (rstripNl t), List.filter_append]
  have h2 : (List.replicate (trailNl t) ([] : PyStr)).filter lineKeep = [] := by
    induction trailNl t with
    | zero => rfl
    | succ n ih => rw [List.replicate_succ, List.filter_cons]; simp [lineKeep, ih]
  rw [h2, List.append_nil]

theorem attrib_withText (e : Elem) (x : Option PyStr) : (e.withText x).attrib = e.attrib := by
  cases e; rfl
theorem attrib_withTl (e : Elem) (x : Option PyStr) : (e.withTl x).attrib = e.attrib := by
  cases e; rfl
theorem attrib_withChildren (e : Elem) (c : ElemList) : (e.withChildren c).attrib = e.attrib := by
  cases e; rfl
theorem text_withTl (e : Elem) (x : Option PyStr) : (e.withTl x).text = e.text := by
  cases e; rfl
theorem text_withChildren (e : Elem) (c : ElemList) : (e.withChildren c).text = e.text := by
  cases e; rfl
theorem text_withText (e : Elem) (x : Option PyStr) : (e.withText x).text = x := by
  cases e; rfl
theorem tl_withText (e : Elem) (x : Option PyStr) : (e.withText x).tl = e.tl := by
  cases e; rfl
theorem tl_withChildren (e : Elem) (c : ElemList) : (e.withChildren c).tl = e.tl := by
  cases e; rfl
theorem tl_withTl (e : Elem) (x : Option PyStr) : (e.withTl x).tl = x := by
  cases e; rfl
theorem childrenL_withText (e : Elem) (x : Option PyStr) : (e.withText x).childrenL = e.childrenL := by
  cases e; rfl
theorem childrenL_withTl (e : Elem) (x : Option PyStr) : (e.withTl x).childrenL = e.childrenL := by
  cases e; rfl
theorem childrenL_withChildren (e : Elem) (c : ElemList) : (e.withChildren c).childrenL = c := by
  cases e; rfl
theorem childrenL_appendChild (e c : Elem) : (e.appendChild c).childrenL = e.childrenL.append c := by
  cases e; rfl
theorem text_appendChild (e c : Elem) : (e.appendChild c).text = e.text := by
  cases e; rfl
theorem tl_appendChild (e c : Elem) : (e.appendChild c).tl = e.tl := by
  cases e; rfl

theorem splitLoop_fresh (tg : String) (a : Attrib) : ∀ (ls : List PyStr) (par : Elem),
    splitLoop tg a ls (Elem.mk tg a none none .nil) par =
      .ok (Elem.mk tg a none none .nil, ls.foldl (splitStep tg a) par)
  | [], par => rfl
  | l :: rest, par => by
    rw [List.foldl_cons]
    unfold splitLoop
    simp only [bind, Except.bind, pure, Except.pure, throw, throwThe,
      MonadExceptOf.throw]
    rw [if_neg (show ¬((Elem.mk tg a none none ElemList.nil).text ≠ none) from
      not_not_intro rfl)]
    rw [if_neg (show ¬((Elem.mk tg a none none ElemList.nil).tl ≠ none) from
      not_not_intro rfl)]
    show (if (!l.isEmpty && !pyIsSpace l) = true then _ else _) = _
    rw [show splitStep tg a par l = if (!l.isEmpty && !pyIsSpace l) = true then
        par.appendChild (Elem.mk tg a (some l) (some ['\n']) .nil)
      else appendToPreviousE par (l ++ ['\n']) from rfl]
    by_cases hk : (!l.isEmpty && !pyIsSpace l) = true
    · rw [if_pos hk, if_pos hk]
      exact splitLoop_fresh tg a rest _
    · rw [if_neg hk, if_neg hk]
      exact splitLoop_fresh tg a rest _


theorem foldl_splitStep_ok (a : Attrib) : ∀ (ls : List PyStr) (par : Elem),
    (∀ l ∈ ls, '\n' ∉ l) →
    par.tag = "zim-tree" →
    par.tl = none →
    (par.text = none ∨ ∃ x, par.text = some x ∧ x ≠ []) →
    (∀ c ∈ par.childrenL.toList, KidOK a c) →
    (ls.foldl (splitStep "strong" a) par).tag = "zim-tree" ∧
    (ls.foldl (splitStep "strong" a) par).tl = none ∧
    ((ls.foldl (splitStep "strong" a) par).text = none ∨
      ∃ x, (ls.foldl (splitStep "strong" a) par).text = some x ∧ x ≠ []) ∧
    (∀ c ∈ (ls.foldl (splitStep "strong" a) par).childrenL.toList, KidOK a c) ∧
    (ls.foldl (splitStep "strong" a) par).childrenL.toList.map Elem.text =
      par.childrenL.toList.map Elem.text ++ ((ls.filter lineKeep).map some)
  | [], par => by
    intro _ h1 h2 h3 h4
    exact ⟨h1, h2, h3, h4, by simp⟩
  | l :: rest, par => by
    intro hls h1 h2 h3 h4
    rw [List.foldl_cons]
    by_cases hk : lineKeep l = true
    · have hstep : splitStep "strong" a par l =
          par.appendChild (Elem.mk "strong" a (some l) (some ['\n']) .nil) := by
        unfold splitStep
        rw [if_pos hk]
      rw [hstep]
      have hkid : KidOK a (Elem.mk "strong" a (some l) (some ['\n']) .nil) := by
        unfold KidOK
        exact ⟨rfl, rfl, rfl, ⟨l, rfl, hk, hls l (List.mem_cons_self _ _)⟩, rfl⟩
      have hrec := foldl_splitStep_ok a rest
        (par.appendChild (Elem.mk "strong" a (some l) (some ['\n']) .nil))
        (fun x hx => hls x (List.mem_cons_of_mem _ hx))
        (by rw [tag_appendChild]; exact h1)
        (by rw [tl_appendChild]; exact h2)
        (by rw [text_appendChild]; exact h3)
        (by
          rw [childrenL_appendChild, toList_append]
          intro c hc
          rcases List.mem_append.1 hc with hcl | hcr
          · exact h4 c hcl
          · rw [List.mem_singleton] at hcr
            subst hcr
            exact hkid)
      refine ⟨hrec.1, hrec.2.1, hrec.2.2.1, hrec.2.2.2.1, ?_⟩
      rw [hrec.2.2.2.2, childrenL_appendChild, toList_append]
      rw [List.filter_cons_of_pos hk]
      simp [Elem.text]
    · have hstep : splitStep "strong" a par l = appendToPreviousE par (l ++ ['\n']) := by
        unfold splitStep
        rw [if_neg hk]
      rw [hstep]
      rw [List.filter_cons_of_neg (by simpa using hk)]
      cases hlg : par.childrenL.lastGet with
      | none =>
        have hA : appendToPreviousE par (l ++ ['\n']) =
            par.withText (some (orCat par.text (l ++ ['\n']))) := by
          unfold appendToPreviousE
          rw [hlg]
        rw [hA]
        have hrec := foldl_splitStep_ok a rest
          (par.withText (some (orCat par.text (l ++ ['\n']))))
          (fun x hx => hls x (List.mem_cons_of_mem _ hx))
          (by rw [tag_withText]; exact h1)
          (by rw [tl_withText]; exact h2)
          (by
            right
            refine ⟨_, text_withText _ _, ?_⟩
            unfold orCat
            simp)
          (by rw [childrenL_withText]; exact h4)
        refine ⟨hrec.1, hrec.2.1, hrec.2.2.1, hrec.2.2.2.1, ?_⟩
        rw [hrec.2.2.2.2, childrenL_withText]
      | some prev =>
        have hne : par.childrenL.toList ≠ [] := by
          rw [lastGet_eq_getLast?] at hlg
          intro hzero
          rw [hzero] at hlg
          simp at hlg
        have hlast : par.childrenL.toList.getLast hne = prev := by
          have hlg2 := hlg
          rw [lastGet_eq_getLast?, List.getLast?_eq_getLast _ hne] at hlg2
          exact Option.some_inj.1 hlg2
        have hprev : KidOK a prev := by
          apply h4
          rw [← hlast]
          exact List.getLast_mem hne
        have hA : appendToPreviousE par (l ++ ['\n']) =
            par.withChildren (par.childrenL.setLast
              (prev.withTl (some (orCat prev.tl (l ++ ['\n']))))) := by
          unfold appendToPreviousE
          rw [hlg]
        obtain ⟨u, hu⟩ : ∃ u, prev.tl = some u := by
          rcases htl : prev.tl with _ | u
          · exfalso
            have := hprev.2.2.2.2
            rw [htl] at this
            simp [startsNl] at this
          · exact ⟨u, rfl⟩
        have hprev' : KidOK a (prev.withTl (some (orCat prev.tl (l ++ ['\n'])))) := by
          refine ⟨by rw [tag_withTl]; exact hprev.1,
                  by rw [attrib_withTl]; exact hprev.2.1,
                  by rw [childrenL_withTl]; exact hprev.2.2.1,
                  ?_, ?_⟩
          · obtain ⟨tx, htx, hk2, hn2⟩ := hprev.2.2.2.1
            exact ⟨tx, by rw [text_withTl]; exact htx, hk2, hn2⟩
          · rw [tl_withTl]
            unfold orCat
            rw [hu]
            have := hprev.2.2.2.2
            rw [hu] at this
            simp only [Option.getD_some] at this ⊢
            exact startsNl_append _ _ this
        have hdecomp : par.childrenL.toList =
            par.childrenL.toList.dropLast ++ [prev] := by
          have hd := List.dropLast_append_getLast hne
          rw [hlast] at hd
          exact hd.symm
        have hnewkids : (par.withChildren (par.childrenL.setLast
            (prev.withTl (some (orCat prev.tl (l ++ ['\n'])))))).childrenL.toList =
            par.childrenL.toList.dropLast ++
              [prev.withTl (some (orCat prev.tl (l ++ ['\n'])))] := by
          rw [childrenL_withChildren, toList_setLast]
          rw [if_neg (by simp [List.isEmpty_iff, hne])]
        rw [hA]
        have hrec := foldl_splitStep_ok a rest
          (par.withChildren (par.childrenL.setLast
            (prev.withTl (some (orCat prev.tl (l ++ ['\n']))))))
          (fun x hx => hls x (List.mem_cons_of_mem _ hx))
          (by rw [tag_withChildren]; exact h1)
          (by rw [tl_withChildren]; exact h2)
          (by rw [text_withChildren]; exact h3)
          (by
            rw [hnewkids]
            intro c hc
            rcases List.mem_append.1 hc with hcl | hcr
            · exact h4 c (List.dropLast_subset _ hcl)
            · rw [List.mem_singleton] at hcr
              subst hcr
              exact hprev')
        refine ⟨hrec.1, hrec.2.1, hrec.2.2.1, hrec.2.2.2.1, ?_⟩
        rw [hrec.2.2.2.2, hnewkids]
        conv_rhs => rw [hdecomp]
        simp [text_withTl]

theorem fixTrailing_zero (t : PyStr) (s : Int) (hne : t ≠ []) :
    fixTrailing t s 0 = (t, (trailNl t : Int)) := by
  unfold fixTrailing
  have h1 : (if t.isEmpty = true then s else ((trailNl t : Nat) : Int)) =
      ((trailNl t : Nat) : Int) := by
    rw [if_neg (by simp [hne])]
  rw [h1]
  rw [if_neg (by omega)]

theorem flush_inline_strong (a : Attrib) (t : PyStr) (hne : t ≠ []) :
    OldParseTreeBuilder.flush 0
      ⟨[Elem.mk "strong" a none none .nil, emptyRoot], none, true, false, [t], 2⟩ =
    .ok ⟨[Elem.mk "strong" a (some ((splitNl (rstripNl t)).getLastD [])) none .nil,
          (splitNl (rstripNl t)).dropLast.foldl (splitStep "strong" a) emptyRoot],
         none, true, false,
         if trailNl t = 0 then [] else [nlRep (trailNl t)], 0⟩ := by
  have hJ : joinL [t] = t := by simp [joinL]
  have hie : t.isEmpty = false := by simp [hne]
  unfold OldParseTreeBuilder.flush
  simp only [bind, Except.bind, pure, Except.pure, throw, throwThe,
    MonadExceptOf.throw]
  rw [hJ, fixTrailing_zero t 2 hne]
  simp only [BState.getLast, Elem.tag, Elem.attrib, Bool.false_eq_true,
    Bool.not_true, Bool.not_false, Bool.true_and, if_false, if_true,
    eq_self_iff_true, decide_eq_true_eq]
  rw [if_neg (show ¬(t.isEmpty = true) from by simp [hie])]
  rw [if_pos (show ("strong" : String) ∈ inlineNoNl from by decide)]
  by_cases hz : trailNl t = 0
  · rw [rstripNl_of_trailNl_zero t hz, if_pos hz]
    rw [if_neg (show ¬((trailNl t : Int) ≠ 0) from by simp [hz])]
    cases hdl : (splitNl t).dropLast with
    | nil =>
      simp only [List.foldl_nil]
      rw [if_neg (show ¬((Elem.mk "strong" a none none ElemList.nil).text ≠ none) from
        not_not_intro rfl)]
      rw [hz]
      rfl
    | cons l0 ls =>
      simp only []
      rw [splitLoop_fresh "strong" a (l0 :: ls) emptyRoot]
      simp only []
      rw [if_neg (show ¬((Elem.mk "strong" a none none ElemList.nil).text ≠ none) from
        not_not_intro rfl)]
      rw [hz]
      rfl
  · rw [if_neg hz]
    rw [if_pos (show ((trailNl t : Int)) ≠ 0 from by exact_mod_cast hz)]
    simp only [Int.toNat_natCast]
    cases hdl : (splitNl (rstripNl t)).dropLast with
    | nil =>
      simp only [List.foldl_nil]
      rw [if_neg (show ¬((Elem.mk "strong" a none none ElemList.nil).text ≠ none) from
        not_not_intro rfl)]
      rfl
    | cons l0 ls =>
      simp only []
      rw [splitLoop_fresh "strong" a (l0 :: ls) emptyRoot]
      simp only []
      rw [if_neg (show ¬((Elem.mk "strong" a none none ElemList.nil).text ≠ none) from
        not_not_intro rfl)]
      rfl

theorem endZt_top_empty (r0 : Elem) (se : Int) (hse : (0 : Int) ≤ se)
    (hr : r0.tag = "zim-tree") :
    OldParseTreeBuilder.end_ "zim-tree" ⟨[r0], none, true, true, [], se⟩ =
      .ok ⟨[], some r0, true, true, [], se⟩ := by
  unfold OldParseTreeBuilder.end_ OldParseTreeBuilder.flush fixTrailing
  simp only [bind, Except.bind, pure, Except.pure, throw, throwThe,
    MonadExceptOf.throw]
  rw [if_neg (show ¬(("zim-tree" : String) = "_ignore_") from by decide)]
  rw [if_neg (show ¬((decide (("zim-tree" : String) = "p") ||
    decide (("zim-tree" : String) = "pre")) = true) from by decide)]
  simp only [joinL, List.foldr_nil, List.isEmpty_nil, if_true]
  rw [if_neg (show ¬((0 : Int) > se) from by omega)]
  simp only [BState.getLast, hr, if_true, eq_self_iff_true]
  rw [show ((decide (("zim-tree" : String) = "h") || decide (("zim-tree" : String) = "p")) &&
    !startsNl ([] : PyStr)) = false from rfl]
  rw [show (decide (("zim-tree" : String) = "li") && startsNl ([] : PyStr)) = false from rfl]
  simp only [Bool.false_eq_true, if_false, List.isEmpty_nil, if_true,
    Bool.not_true, Bool.false_and]
  rw [if_neg (not_not_intro hr)]

theorem endZt_kid_empty (r0 c : Elem) (se : Int) (hse : (0 : Int) ≤ se)
    (hr : r0.tag = "zim-tree") (hlg : r0.childrenL.lastGet = some c)
    (hc : c.tag = "strong") :
    OldParseTreeBuilder.end_ "zim-tree" ⟨[r0], none, false, true, [], se⟩ =
      .ok ⟨[], some r0, true, true, [], se⟩ := by
  unfold OldParseTreeBuilder.end_ OldParseTreeBuilder.flush fixTrailing
  simp only [bind, Except.bind, pure, Except.pure, throw, throwThe,
    MonadExceptOf.throw]
  rw [if_neg (show ¬(("zim-tree" : String) = "_ignore_") from by decide)]
  rw [if_neg (show ¬((decide (("zim-tree" : String) = "p") ||
    decide (("zim-tree" : String) = "pre")) = true) from by decide)]
  simp only [joinL, List.foldr_nil, List.isEmpty_nil, if_true]
  rw [if_neg (show ¬((0 : Int) > se) from by omega)]
  simp only [BState.getLast, hlg, hc, if_true, eq_self_iff_true,
    Bool.false_eq_true, if_false]
  rw [show ((decide (("strong" : String) = "h") || decide (("strong" : String) = "p")) &&
    !startsNl ([] : PyStr)) = false from rfl]
  rw [show (decide (("strong" : String) = "li") && startsNl ([] : PyStr)) = false from rfl]
  simp only [Bool.false_eq_true, if_false, List.isEmpty_nil, if_true,
    Bool.not_true, Bool.false_and]
  rw [if_neg (not_not_intro hr)]

theorem endZt_tail_write (r0 c : Elem) (tb : PyStr) (se : Int) (htb : tb ≠ [])
    (hr : r0.tag = "zim-tree") (hlg : r0.childrenL.lastGet = some c)
    (hc : c.tag = "strong") (hctl : c.tl = none) :
    OldParseTreeBuilder.end_ "zim-tree" ⟨[r0], none, false, true, [tb], se⟩ =
      .ok ⟨[], some (r0.withChildren (r0.childrenL.setLast (c.withTl (some tb)))),
           true, true, [], (trailNl tb : Int)⟩ := by
  have hie : tb.isEmpty = false := by simp [htb]
  unfold OldParseTreeBuilder.end_ OldParseTreeBuilder.flush
  simp only [bind, Except.bind, pure, Except.pure, throw, throwThe,
    MonadExceptOf.throw]
  rw [if_neg (show ¬(("zim-tree" : String) = "_ignore_") from by decide)]
  rw [if_neg (show ¬((decide (("zim-tree" : String) = "p") ||
    decide (("zim-tree" : String) = "pre")) = true) from by decide)]
  simp only [joinL, List.foldr_cons, List.foldr_nil, List.append_nil]
  rw [fixTrailing_zero tb se htb]
  simp only [BState.getLast, BState.setLast, hlg, hc, hctl, if_true,
    eq_self_iff_true, Bool.false_eq_true, if_false]
  rw [show ((decide (("strong" : String) = "h") || decide (("strong" : String) = "p")) &&
    !startsNl tb) = false from by rfl]
  rw [show (decide (("strong" : String) = "li") && startsNl tb) = false from by rfl]
  simp only [Bool.false_eq_true, if_false]
  rw [if_neg (show ¬(tb.isEmpty = true) from by simp [hie])]
  simp only [Bool.not_true, Bool.false_and, Bool.false_eq_true, if_false, if_true,
    List.isEmpty_nil]
  rw [if_neg (not_not_intro (show (r0.withChildren (r0.childrenL.setLast
    (c.withTl (some tb)))).tag = "zim-tree" from by rw [tag_withChildren]; exact hr))]

theorem endZt_text_write (r0 : Elem) (tb : PyStr) (se : Int) (htb : tb ≠ [])
    (hr : r0.tag = "zim-tree") (hrtl : r0.tl = none) :
    OldParseTreeBuilder.end_ "zim-tree" ⟨[r0], none, true, true, [tb], se⟩ =
      .ok ⟨[], some (r0.withTl (some tb)), true, true, [], (trailNl tb : Int)⟩ := by
  have hie : tb.isEmpty = false := by simp [htb]
  unfold OldParseTreeBuilder.end_ OldParseTreeBuilder.flush
  simp only [bind, Except.bind, pure, Except.pure, throw, throwThe,
    MonadExceptOf.throw]
  rw [if_neg (show ¬(("zim-tree" : String) = "_ignore_") from by decide)]
  rw [if_neg (show ¬((decide (("zim-tree" : String) = "p") ||
    decide (("zim-tree" : String) = "pre")) = true) from by decide)]
  simp only [joinL, List.foldr_cons, List.foldr_nil, List.append_nil]
  rw [fixTrailing_zero tb se htb]
  simp only [BState.getLast, BState.setLast, hr, hrtl, if_true,
    eq_self_iff_true, Bool.false_eq_true, if_false]
  rw [show ((decide (("zim-tree" : String) = "h") || decide (("zim-tree" : String) = "p")) &&
    !startsNl tb) = false from by rfl]
  rw [show (decide (("zim-tree" : String) = "li") && startsNl tb) = false from by rfl]
  simp only [Bool.false_eq_true, if_false]
  rw [if_neg (show ¬(tb.isEmpty = true) from by simp [hie])]
  simp only [Bool.not_true, Bool.false_and, Bool.false_eq_true, if_false, if_true,
    List.isEmpty_nil]
  rw [if_neg (not_not_intro (show (r0.withTl (some tb)).tag = "zim-tree" from by
    rw [tag_withTl]; exact hr))]

theorem lastGet_append (cs : ElemList) (e : Elem) : (cs.append e).lastGet = some e := by
  rw [lastGet_eq_getLast?, toList_append, List.getLast?_concat]

theorem close_ok (r : Elem) (lt tm : Bool) (db : List PyStr) (se : Int)
    (hr : r.tag = "zim-tree") :
    OldParseTreeBuilder.close ⟨[], some r, lt, tm, db, se⟩ = .ok r := by
  unfold OldParseTreeBuilder.close
  simp only [bind, Except.bind, pure, Except.pure, throw, throwThe,
    MonadExceptOf.throw, List.isEmpty_nil, Bool.not_true, Bool.false_eq_true,
    if_false, hr, if_true, eq_self_iff_true]

theorem collectTagL_kids : ∀ (cs : ElemList),
    (∀ c ∈ cs.toList, c.tag = "strong" ∧ c.childrenL = ElemList.nil) →
    ElemList.collectTag "strong" cs = cs.toList
  | .nil, _ => rfl
  | .cons e es, h => by
    rw [ElemList.collectTag]
    have he := h e (by rw [ElemList.toList]; exact List.mem_cons_self _ _)
    have hrest := collectTagL_kids es (fun c hc => h c (by
      rw [ElemList.toList]; exact List.mem_cons_of_mem _ hc))
    rw [hrest]
    cases e with
    | mk tg a x l c =>
      have htg : tg = "strong" := he.1
      have hcn : c = ElemList.nil := he.2
      subst htg
      subst hcn
      rw [Elem.collectTag]
      rw [if_pos rfl]
      rfl

theorem collectTag_strongRoot (r : Elem) (hr : r.tag = "zim-tree")
    (hkids : ∀ c ∈ r.childrenL.toList, c.tag = "strong" ∧ c.childrenL = ElemList.nil) :
    Elem.collectTag "strong" r = r.childrenL.toList := by
  cases r with
  | mk tg a x l c =>
    have htg : tg = "zim-tree" := hr
    subst htg
    rw [Elem.collectTag]
    rw [if_neg (by decide)]
    rw [List.nil_append]
    exact collectTagL_kids c hkids

theorem getLastD_eq : ∀ (l : List PyStr) (hl : l ≠ []), l.getLastD [] = l.getLast hl
  | [], hl => absurd rfl hl
  | [a], _ => rfl
  | a :: b :: bs, _ => by
    rw [List.getLastD_cons, List.getLast_cons (by simp)]
    exact getLastD_eq (b :: bs) (by simp)

theorem dropLast_getLastD (l : List PyStr) (hl : l ≠ []) :
    l.dropLast ++ [l.getLastD []] = l := by
  rw [getLastD_eq l hl]
  exact List.dropLast_append_getLast hl

theorem getLastD_mem (l : List PyStr) (hl : l ≠ []) : l.getLastD [] ∈ l := by
  rw [getLastD_eq l hl]
  exact List.getLast_mem hl

theorem nlRep_ne_nil (k : Nat) (hk : k ≠ 0) : nlRep k ≠ [] := by
  unfold nlRep
  simp [hk]

theorem endStrong_keep (a : Attrib) (t : PyStr) (hne : t ≠ [])
    (hkeep : lineKeep ((splitNl (rstripNl t)).getLastD []) = true) :
    OldParseTreeBuilder.end_ "strong"
      ⟨[Elem.mk "strong" a none none .nil, emptyRoot], none, true, false, [t], 2⟩ =
    .ok ⟨[((splitNl (rstripNl t)).dropLast.foldl (splitStep "strong" a) emptyRoot).appendChild
            (Elem.mk "strong" a (some ((splitNl (rstripNl t)).getLastD [])) none .nil)],
         none, false, true,
         if trailNl t = 0 then [] else [nlRep (trailNl t)], 0⟩ := by
  unfold OldParseTreeBuilder.end_
  simp only [bind, Except.bind, pure, Except.pure, throw, throwThe,
    MonadExceptOf.throw]
  rw [if_neg (show ¬(("strong" : String) = "_ignore_") from by decide)]
  rw [if_neg (show ¬((decide (("strong" : String) = "p") ||
    decide (("strong" : String) = "pre")) = true) from by decide)]
  rw [flush_inline_strong a t hne]
  simp only [Elem.tag, Elem.text, Elem.childrenL, truthy, Option.getD_some,
    ElemList.isNil, List.isEmpty_cons, Bool.not_false, Bool.not_true,
    Bool.true_and, Bool.false_or, Bool.or_false]
  rw [if_neg (show ¬(("strong" : String) ≠ "strong") from not_not_intro rfl)]
  rw [show decide (("strong" : String) = "img") = false from rfl]
  rw [show decide (("strong" : String) = "object") = false from rfl]
  simp only [Bool.false_or, Bool.or_false]
  rw [show (!List.isEmpty ((splitNl (rstripNl t)).getLastD []) &&
      !pyIsSpace ((splitNl (rstripNl t)).getLastD [])) = true from hkeep]
  simp only [Bool.not_true, Bool.false_eq_true, if_false]

theorem endStrong_purge_gen (a : Attrib) (t : PyStr) (par2 : Elem) (hne : t ≠ [])
    (hkeep : lineKeep ((splitNl (rstripNl t)).getLastD []) = false)
    (hp : (if (!List.isEmpty ((splitNl (rstripNl t)).getLastD []) &&
            pyIsSpace ((splitNl (rstripNl t)).getLastD [])) = true then
          appendToPreviousE ((splitNl (rstripNl t)).dropLast.foldl
            (splitStep "strong" a) emptyRoot) ((splitNl (rstripNl t)).getLastD [])
        else (splitNl (rstripNl t)).dropLast.foldl (splitStep "strong" a) emptyRoot) =
      par2) :
    OldParseTreeBuilder.end_ "strong"
      ⟨[Elem.mk "strong" a none none .nil, emptyRoot], none, true, false, [t], 2⟩ =
    (match par2.childrenL.lastGet with
     | some lastC =>
       match lastC.tl with
       | some tlv => .ok ⟨[par2.withChildren (par2.childrenL.setLast (lastC.withTl none))],
                          none, false, true, [tlv], 0⟩
       | none => .ok ⟨[par2], none, false, true,
                      if trailNl t = 0 then [] else [nlRep (trailNl t)], 0⟩
     | none =>
       match par2.text with
       | some txv => .ok ⟨[par2.withText none], none, true, true, [txv], 0⟩
       | none => .ok ⟨[par2], none, true, true,
                      if trailNl t = 0 then [] else [nlRep (trailNl t)], 0⟩) := by
  unfold OldParseTreeBuilder.end_
  simp only [bind, Except.bind, pure, Except.pure, throw, throwThe,
    MonadExceptOf.throw]
  rw [if_neg (show ¬(("strong" : String) = "_ignore_") from by decide)]
  rw [if_neg (show ¬((decide (("strong" : String) = "p") ||
    decide (("strong" : String) = "pre")) = true) from by decide)]
  rw [flush_inline_strong a t hne]
  simp only [Elem.tag, Elem.text, Elem.childrenL, truthy, Option.getD_some,
    ElemList.isNil, List.isEmpty_cons, Bool.not_false, Bool.not_true,
    Bool.true_and, Bool.false_or, Bool.or_false]
  rw [if_neg (show ¬(("strong" : String) ≠ "strong") from not_not_intro rfl)]
  rw [show decide (("strong" : String) = "img") = false from rfl]
  rw [show decide (("strong" : String) = "object") = false from rfl]
  simp only [Bool.false_or, Bool.or_false]
  rw [show (!List.isEmpty ((splitNl (rstripNl t)).getLastD []) &&
      !pyIsSpace ((splitNl (rstripNl t)).getLastD [])) = false from hkeep]
  simp only [Bool.not_false, if_true]
  rw [hp]

theorem bRun_c1 (a : Attrib) (t : PyStr) :
    buildFromEvents (c1events a t) =
      (OldParseTreeBuilder.end_ "strong"
        ⟨[Elem.mk "strong" a none none .nil, emptyRoot], none, true, false, [t], 2⟩).bind
      (fun s4 => (OldParseTreeBuilder.end_ "zim-tree" s4).bind
        (fun s5 => OldParseTreeBuilder.close s5)) := by
  have hstep : buildFromEvents (c1events a t) =
      ((OldParseTreeBuilder.end_ "strong"
        ⟨[Elem.mk "strong" a none none .nil, emptyRoot], none, true, false, [t], 2⟩).bind
      (fun s4 => (OldParseTreeBuilder.end_ "zim-tree" s4).bind
        (fun s5 => pure s5))).bind OldParseTreeBuilder.close := rfl
  rw [hstep]
  cases hx : OldParseTreeBuilder.end_ "strong"
      ⟨[Elem.mk "strong" a none none .nil, emptyRoot], none, true, false, [t], 2⟩ with
  | error e => rfl
  | ok s4 =>
    simp only [bind, Except.bind]
    cases hy : OldParseTreeBuilder.end_ "zim-tree" s4 with
    | error e => rfl
    | ok s5 => rfl

theorem appendPrev_kids (a : Attrib) (par : Elem) (txt : PyStr) (prev : Elem)
    (hlg : par.childrenL.lastGet = some prev)
    (hk : ∀ c ∈ par.childrenL.toList, KidOK a c) :
    (appendToPreviousE par txt).childrenL.toList =
      par.childrenL.toList.dropLast ++ [prev.withTl (some (orCat prev.tl txt))] ∧
    (appendToPreviousE par txt).tag = par.tag ∧
    (appendToPreviousE par txt).tl = par.tl ∧
    (appendToPreviousE par txt).text = par.text ∧
    KidOK a (prev.withTl (some (orCat prev.tl txt))) ∧
    List.map Elem.text (par.childrenL.toList.dropLast ++
        [prev.withTl (some (orCat prev.tl txt))]) =
      List.map Elem.text par.childrenL.toList := by
  have hne : par.childrenL.toList ≠ [] := by
    rw [lastGet_eq_getLast?] at hlg
    intro hzero
    rw [hzero] at hlg
    simp at hlg
  have hlast : par.childrenL.toList.getLast hne = prev := by
    have hlg2 := hlg
    rw [lastGet_eq_getLast?, List.getLast?_eq_getLast _ hne] at hlg2
    exact Option.some_inj.1 hlg2
  have hprev : KidOK a prev := by
    apply hk
    rw [← hlast]
    exact List.getLast_mem hne
  have hA : appendToPreviousE par txt =
      par.withChildren (par.childrenL.setLast
        (prev.withTl (some (orCat prev.tl txt)))) := by
    unfold appendToPreviousE
    rw [hlg]
  have hdecomp : par.childrenL.toList =
      par.childrenL.toList.dropLast ++ [prev] := by
    have hd := List.dropLast_append_getLast hne
    rw [hlast] at hd
    exact hd.symm
  obtain ⟨u, hu⟩ : ∃ u, prev.tl = some u := by
    rcases htl : prev.tl with _ | u
    · exfalso
      have := hprev.2.2.2.2
      rw [htl] at this
      simp [startsNl] at this
    · exact ⟨u, rfl⟩
  refine ⟨?_, by rw [hA, tag_withChildren], by rw [hA, tl_withChildren],
    by rw [hA, text_withChildren], ?_, ?_⟩
  · rw [hA, childrenL_withChildren, toList_setLast]
    rw [if_neg (by simp [List.isEmpty_iff, hne])]
  · refine ⟨by rw [tag_withTl]; exact hprev.1,
            by rw [attrib_withTl]; exact hprev.2.1,
            by rw [childrenL_withTl]; exact hprev.2.2.1, ?_, ?_⟩
    · obtain ⟨tx, htx, hk2, hn2⟩ := hprev.2.2.2.1
      exact ⟨tx, by rw [text_withTl]; exact htx, hk2, hn2⟩
    · rw [tl_withTl]
      unfold orCat
      rw [hu]
      have := hprev.2.2.2.2
      rw [hu] at this
      simp only [Option.getD_some] at this ⊢
      exact startsNl_append _ _ this
  · conv_rhs => rw [hdecomp]
    simp [text_withTl]

theorem facts_from_kids (a : Attrib) (t : PyStr) (r : Elem)
    (hr : r.tag = "zim-tree")
    (htag : ∀ c ∈ r.childrenL.toList, c.tag = "strong" ∧ c.attrib = a ∧
      c.childrenL = ElemList.nil ∧ (∃ l, c.text = some l ∧ '\n' ∉ l))
    (htails : ∀ c ∈ r.childrenL.toList.dropLast, startsNl (c.tl.getD []) = true)
    (hmap : r.childrenL.toList.map Elem.text = ((splitNl t).filter lineKeep).map some) :
    (r.collectTag "strong").map Elem.text = ((splitNl t).filter lineKeep).map some ∧
    (∀ e ∈ r.collectTag "strong",
      e.attrib = a ∧ e.childrenL = ElemList.nil ∧ '\n' ∉ e.text.getD []) ∧
    (∀ e ∈ (r.collectTag "strong").dropLast, startsNl (e.tl.getD []) = true) := by
  have hct : r.collectTag "strong" = r.childrenL.toList :=
    collectTag_strongRoot r hr (fun c hc => ⟨(htag c hc).1, (htag c hc).2.2.1⟩)
  rw [hct]
  refine ⟨hmap, ?_, htails⟩
  intro e he
  obtain ⟨h1, h2, h3, l, hl, hnl⟩ := htag e he
  exact ⟨h2, h3, by rw [hl]; simpa using hnl⟩

theorem withTl_withTl (e : Elem) (u v : Option PyStr) :
    (e.withTl u).withTl v = e.withTl v := by
  cases e; rfl

theorem mem_of_lastGet (cs : ElemList) (e : Elem) (h : cs.lastGet = some e) :
    e ∈ cs.toList := by
  rw [lastGet_eq_getLast?] at h
  have hne : cs.toList ≠ [] := by
    intro h0
    rw [h0] at h
    simp at h
  rw [List.getLast?_eq_getLast _ hne] at h
  rw [← Option.some_inj.1 h]
  exact List.getLast_mem hne

theorem toList_nil_of_lastGet_none (cs : ElemList) (h : cs.lastGet = none) :
    cs.toList = [] := by
  rw [lastGet_eq_getLast?] at h
  cases hc : cs.toList with
  | nil => rfl
  | cons x xs =>
    rw [hc] at h
    rw [List.getLast?_eq_getLast _ (by simp)] at h
    simp at h

theorem ne_nil_of_startsNl (s : PyStr) (h : startsNl s = true) : s ≠ [] := by
  intro h0
  subst h0
  exact absurd h (by decide)

theorem orCat_ne_nil (o : Option PyStr) (x : PyStr) (hx : x ≠ []) :
    orCat o x ≠ [] := by
  unfold orCat
  simp [hx]

theorem withTl_self (e : Elem) : e.withTl e.tl = e := by
  cases e; rfl

theorem lastGet_decomp (cs : ElemList) (e : Elem) (h : cs.lastGet = some e) :
    cs.toList = cs.toList.dropLast ++ [e] := by
  rw [lastGet_eq_getLast?] at h
  have hne : cs.toList ≠ [] := by
    intro h0
    rw [h0] at h
    simp at h
  have hlast : cs.toList.getLast hne = e := by
    rw [List.getLast?_eq_getLast _ hne] at h
    exact Option.some_inj.1 h
  have hd := List.dropLast_append_getLast hne
  rw [hlast] at hd
  exact hd.symm

theorem toList_ne_nil_of_lastGet (cs : ElemList) (e : Elem)
    (h : cs.lastGet = some e) : cs.toList ≠ [] := by
  rw [lastGet_eq_getLast?] at h
  intro h0
  rw [h0] at h
  simp at h

/-! ## C1 — the inline split -/

/-- C1: the inline split behaves as claimed, for every attribute list and
every data string fed to an open `strong` element.  The build always
succeeds; the `strong` elements of the resulting tree carry, in document
order, exactly the non-blank lines of the input as their texts; every
`strong` element carries the original attributes, has no children and no
newline inside its text; and every `strong` element except the last has a
tail starting with `'\n'`.  In particular `start(strong); data("a\nb");
end(strong)` yields exactly two sibling strong elements with texts `"a"`
and `"b"`, the first with a newline tail. -/
theorem inline_split (a : Attrib) (t : PyStr) :
    (∃ r, buildFromEvents (c1events a t) = .ok r ∧
      (r.collectTag "strong").map Elem.text = ((splitNl t).filter lineKeep).map some ∧
      (∀ e ∈ r.collectTag "strong",
        e.attrib = a ∧ e.childrenL = ElemList.nil ∧ '\n' ∉ e.text.getD []) ∧
      (∀ e ∈ (r.collectTag "strong").dropLast, startsNl (e.tl.getD []) = true)) ∧
    buildFromEvents (c1events a (pys "a\nb")) = .ok (Elem.mk "zim-tree" [] none none
      (.cons (Elem.mk "strong" a (some (pys "a")) (some (pys "\n")) .nil)
      (.cons (Elem.mk "strong" a (some (pys "b")) none .nil) .nil))) := by
  refine ⟨?_, rfl⟩
  by_cases hT : t = []
  · subst hT
    refine ⟨emptyRoot, rfl, rfl, ?_, ?_⟩
    · intro e he
      exact absurd he (by rw [show Elem.collectTag "strong" emptyRoot = [] from rfl]; exact List.not_mem_nil e)
    · intro e he
      exact absurd he (by rw [show (Elem.collectTag "strong" emptyRoot).dropLast = [] from rfl]; exact List.not_mem_nil e)
  · have hlneq : splitNl (rstripNl t) ≠ [] := splitNl_ne_nil _
    have hlsnl : ∀ l ∈ (splitNl (rstripNl t)).dropLast, '\n' ∉ l := fun l hl =>
      splitNl_no_nl (rstripNl t) l (List.dropLast_subset _ hl)
    have BP := foldl_splitStep_ok a (splitNl (rstripNl t)).dropLast emptyRoot hlsnl
      rfl rfl (Or.inl rfl)
      (by
        intro c hc
        rw [show emptyRoot.childrenL.toList = [] from rfl] at hc
        exact absurd hc (List.not_mem_nil c))
    obtain ⟨hp1, hp2, hp3, hp4, hp5⟩ := BP
    have hp5' : ((splitNl (rstripNl t)).dropLast.foldl (splitStep "strong" a)
        emptyRoot).childrenL.toList.map Elem.text =
        (((splitNl (rstripNl t)).dropLast.filter lineKeep).map some) := by
      rw [hp5]
      rw [show emptyRoot.childrenL.toList = [] from rfl]
      rfl
    have hmapT : ((splitNl t).filter lineKeep).map some =
        (((splitNl (rstripNl t)).dropLast.filter lineKeep).map some) ++
          (if lineKeep ((splitNl (rstripNl t)).getLastD []) = true
           then [some ((splitNl (rstripNl t)).getLastD [])] else []) := by
      rw [filter_splitNl_rstrip t]
      conv_lhs => rw [← dropLast_getLastD (splitNl (rstripNl t)) hlneq]
      rw [List.filter_append, List.map_append]
      congr 1
      by_cases hk : lineKeep ((splitNl (rstripNl t)).getLastD []) = true
      · rw [if_pos hk, List.filter_cons, if_pos hk]
        rfl
      · rw [if_neg hk, List.filter_cons, if_neg hk]
        rfl
    by_cases hkeep : lineKeep ((splitNl (rstripNl t)).getLastD []) = true
    · -- last line kept
      rw [bRun_c1, endStrong_keep a t hT hkeep]
      simp only [Except.bind]
      have hr0tag : (((splitNl (rstripNl t)).dropLast.foldl (splitStep "strong" a)
          emptyRoot).appendChild (Elem.mk "strong" a
            (some ((splitNl (rstripNl t)).getLastD [])) none .nil)).tag = "zim-tree" := by
        rw [tag_appendChild]
        exact hp1
      have hlg0 : (((splitNl (rstripNl t)).dropLast.foldl (splitStep "strong" a)
          emptyRoot).appendChild (Elem.mk "strong" a
            (some ((splitNl (rstripNl t)).getLastD [])) none .nil)).childrenL.lastGet =
          some (Elem.mk "strong" a (some ((splitNl (rstripNl t)).getLastD [])) none .nil) := by
        rw [childrenL_appendChild]
        exact lastGet_append _ _
      have kids0 : (((splitNl (rstripNl t)).dropLast.foldl (splitStep "strong" a)
          emptyRoot).appendChild (Elem.mk "strong" a
            (some ((splitNl (rstripNl t)).getLastD [])) none .nil)).childrenL.toList =
          ((splitNl (rstripNl t)).dropLast.foldl (splitStep "strong" a)
            emptyRoot).childrenL.toList ++
          [Elem.mk "strong" a (some ((splitNl (rstripNl t)).getLastD [])) none .nil] := by
        rw [childrenL_appendChild, toList_append]
      by_cases hz : trailNl t = 0
      · rw [if_pos hz]
        rw [endZt_kid_empty _ _ 0 le_rfl hr0tag hlg0 rfl]
        simp only [Except.bind]
        rw [close_ok _ _ _ _ _ hr0tag]
        refine ⟨_, rfl, ?_⟩
        apply facts_from_kids a t _ hr0tag
        · rw [kids0]
          intro c hc
          rcases List.mem_append.1 hc with h | h
          · obtain ⟨k1, k2, k3, ⟨l0, hl0, hk0, hn0⟩, k5⟩ := hp4 c h
            exact ⟨k1, k2, k3, l0, hl0, hn0⟩
          · rw [List.mem_singleton] at h
            subst h
            refine ⟨rfl, rfl, rfl, (splitNl (rstripNl t)).getLastD [], rfl, ?_⟩
            exact splitNl_no_nl _ _ (getLastD_mem _ hlneq)
        · rw [kids0, List.dropLast_concat]
          intro c hc
          exact (hp4 c hc).2.2.2.2
        · rw [kids0, List.map_append, hp5', hmapT, if_pos hkeep]
          rfl
      · rw [if_neg hz]
        rw [endZt_tail_write _ _ (nlRep (trailNl t)) 0 (nlRep_ne_nil _ hz)
          hr0tag hlg0 rfl rfl]
        simp only [Except.bind]
        have hrtag2 : ((((splitNl (rstripNl t)).dropLast.foldl (splitStep "strong" a)
            emptyRoot).appendChild (Elem.mk "strong" a
              (some ((splitNl (rstripNl t)).getLastD [])) none .nil)).withChildren
            ((((splitNl (rstripNl t)).dropLast.foldl (splitStep "strong" a)
              emptyRoot).appendChild (Elem.mk "strong" a
                (some ((splitNl (rstripNl t)).getLastD [])) none .nil)).childrenL.setLast
              ((Elem.mk "strong" a (some ((splitNl (rstripNl t)).getLastD [])) none
                .nil).withTl (some (nlRep (trailNl t)))))).tag = "zim-tree" := by
          rw [tag_withChildren]
          exact hr0tag
        rw [close_ok _ _ _ _ _ hrtag2]
        refine ⟨_, rfl, ?_⟩
        have kids1 : ((((splitNl (rstripNl t)).dropLast.foldl (splitStep "strong" a)
            emptyRoot).appendChild (Elem.mk "strong" a
              (some ((splitNl (rstripNl t)).getLastD [])) none .nil)).withChildren
            ((((splitNl (rstripNl t)).dropLast.foldl (splitStep "strong" a)
              emptyRoot).appendChild (Elem.mk "strong" a
                (some ((splitNl (rstripNl t)).getLastD [])) none .nil)).childrenL.setLast
              ((Elem.mk "strong" a (some ((splitNl (rstripNl t)).getLastD [])) none
                .nil).withTl (some (nlRep (trailNl t)))))).childrenL.toList =
            ((splitNl (rstripNl t)).dropLast.foldl (splitStep "strong" a)
              emptyRoot).childrenL.toList ++
            [(Elem.mk "strong" a (some ((splitNl (rstripNl t)).getLastD [])) none
              .nil).withTl (some (nlRep (trailNl t)))] := by
          rw [childrenL_withChildren, toList_setLast, childrenL_appendChild,
            toList_append]
          rw [if_neg (by simp)]
          rw [List.dropLast_concat]
        apply facts_from_kids a t _ hrtag2
        · rw [kids1]
          intro c hc
          rcases List.mem_append.1 hc with h | h
          · obtain ⟨k1, k2, k3, ⟨l0, hl0, hk0, hn0⟩, k5⟩ := hp4 c h
            exact ⟨k1, k2, k3, l0, hl0, hn0⟩
          · rw [List.mem_singleton] at h
            subst h
            refine ⟨by rw [tag_withTl]; rfl, by rw [attrib_withTl]; rfl,
              by rw [childrenL_withTl]; rfl,
              (splitNl (rstripNl t)).getLastD [], by rw [text_withTl]; rfl, ?_⟩
            exact splitNl_no_nl _ _ (getLastD_mem _ hlneq)
        · rw [kids1, List.dropLast_concat]
          intro c hc
          exact (hp4 c hc).2.2.2.2
        · rw [kids1, List.map_append, hp5', hmapT, if_pos hkeep]
          rw [List.map_cons, text_withTl]
          rfl
    · have hkf : lineKeep ((splitNl (rstripNl t)).getLastD []) = false := by
        simpa using hkeep
      have hmapP : (((splitNl (rstripNl t)).dropLast.filter lineKeep).map some :
          List (Option PyStr)) = ((splitNl t).filter lineKeep).map some := by
        rw [hmapT, if_neg hkeep, List.append_nil]
      by_cases hws : (!List.isEmpty ((splitNl (rstripNl t)).getLastD []) &&
          pyIsSpace ((splitNl (rstripNl t)).getLastD [])) = true
      · cases hPk : ((splitNl (rstripNl t)).dropLast.foldl (splitStep "strong" a)
            emptyRoot).childrenL.lastGet with
        | some prev =>
          obtain ⟨ap1, ap2, ap3, ap4, ap5, ap6⟩ := appendPrev_kids a _
            ((splitNl (rstripNl t)).getLastD []) prev hPk hp4
          rw [bRun_c1, endStrong_purge_gen a t
            (appendToPreviousE ((splitNl (rstripNl t)).dropLast.foldl
              (splitStep "strong" a) emptyRoot) ((splitNl (rstripNl t)).getLastD []))
            hT hkf (if_pos hws)]
          have hlg2 : (appendToPreviousE ((splitNl (rstripNl t)).dropLast.foldl
              (splitStep "strong" a) emptyRoot)
              ((splitNl (rstripNl t)).getLastD [])).childrenL.lastGet =
              some (prev.withTl (some (orCat prev.tl
                ((splitNl (rstripNl t)).getLastD [])))) := by
            rw [lastGet_eq_getLast?, ap1, List.getLast?_concat]
          rw [hlg2]
          simp only []
          rw [tl_withTl]
          simp only []
          simp only [Except.bind]
          have htbne : orCat prev.tl ((splitNl (rstripNl t)).getLastD []) ≠ [] := by
            apply ne_nil_of_startsNl
            have h5 := ap5.2.2.2.2
            rw [tl_withTl] at h5
            simpa using h5
          have hAPne : (appendToPreviousE ((splitNl (rstripNl t)).dropLast.foldl
              (splitStep "strong" a) emptyRoot)
              ((splitNl (rstripNl t)).getLastD [])).childrenL.toList ≠ [] := by
            rw [ap1]
            simp
          have kids2 : ((appendToPreviousE ((splitNl (rstripNl t)).dropLast.foldl
              (splitStep "strong" a) emptyRoot)
              ((splitNl (rstripNl t)).getLastD [])).withChildren
              ((appendToPreviousE ((splitNl (rstripNl t)).dropLast.foldl
                (splitStep "strong" a) emptyRoot)
                ((splitNl (rstripNl t)).getLastD [])).childrenL.setLast
                ((prev.withTl (some (orCat prev.tl
                  ((splitNl (rstripNl t)).getLastD [])))).withTl none))).childrenL.toList =
              ((splitNl (rstripNl t)).dropLast.foldl (splitStep "strong" a)
                emptyRoot).childrenL.toList.dropLast ++
              [(prev.withTl (some (orCat prev.tl
                ((splitNl (rstripNl t)).getLastD [])))).withTl none] := by
            rw [childrenL_withChildren, toList_setLast,
              if_neg (by simp only [List.isEmpty_iff]; exact hAPne)]
            rw [ap1, List.dropLast_concat]
          rw [endZt_tail_write _ ((prev.withTl (some (orCat prev.tl
              ((splitNl (rstripNl t)).getLastD [])))).withTl none)
            (orCat prev.tl ((splitNl (rstripNl t)).getLastD [])) 0 htbne
            (by rw [tag_withChildren, ap2]; exact hp1)
            (by rw [lastGet_eq_getLast?, kids2, List.getLast?_concat])
            (by rw [tag_withTl]; exact ap5.1)
            (tl_withTl _ _)]
          simp only [Except.bind]
          rw [close_ok _ _ _ _ _
            (by rw [tag_withChildren, tag_withChildren, ap2]; exact hp1)]
          refine ⟨_, rfl, ?_⟩
          have kidsF : (((appendToPreviousE ((splitNl (rstripNl t)).dropLast.foldl
              (splitStep "strong" a) emptyRoot)
              ((splitNl (rstripNl t)).getLastD [])).withChildren
              ((appendToPreviousE ((splitNl (rstripNl t)).dropLast.foldl
                (splitStep "strong" a) emptyRoot)
                ((splitNl (rstripNl t)).getLastD [])).childrenL.setLast
                ((prev.withTl (some (orCat prev.tl
                  ((splitNl (rstripNl t)).getLastD [])))).withTl none))).withChildren
              (((appendToPreviousE ((splitNl (rstripNl t)).dropLast.foldl
                (splitStep "strong" a) emptyRoot)
                ((splitNl (rstripNl t)).getLastD [])).withChildren
                ((appendToPreviousE ((splitNl (rstripNl t)).dropLast.foldl
                  (splitStep "strong" a) emptyRoot)
                  ((splitNl (rstripNl t)).getLastD [])).childrenL.setLast
                  ((prev.withTl (some (orCat prev.tl
                    ((splitNl (rstripNl t)).getLastD [])))).withTl none))).childrenL.setLast
                (((prev.withTl (some (orCat prev.tl
                  ((splitNl (rstripNl t)).getLastD [])))).withTl none).withTl
                  (some (orCat prev.tl
                    ((splitNl (rstripNl t)).getLastD [])))))).childrenL.toList =
              ((splitNl (rstripNl t)).dropLast.foldl (splitStep "strong" a)
                emptyRoot).childrenL.toList.dropLast ++
              [prev.withTl (some (orCat prev.tl ((splitNl (rstripNl t)).getLastD [])))] := by
            rw [childrenL_withChildren, toList_setLast, kids2, if_neg (by simp)]
            rw [List.dropLast_concat, withTl_withTl, withTl_withTl]
          apply facts_from_kids a t _
            (by rw [tag_withChildren, tag_withChildren, ap2]; exact hp1)
          · rw [kidsF]
            intro c hc
            rcases List.mem_append.1 hc with h | h
            · obtain ⟨k1, k2, k3, ⟨l0, hl0, hk0, hn0⟩, k5⟩ :=
                hp4 c (List.dropLast_subset _ h)
              exact ⟨k1, k2, k3, l0, hl0, hn0⟩
            · rw [List.mem_singleton] at h
              subst h
              obtain ⟨k1, k2, k3, ⟨l0, hl0, hk0, hn0⟩, k5⟩ := ap5
              exact ⟨k1, k2, k3, l0, hl0, hn0⟩
          · rw [kidsF, List.dropLast_concat]
            intro c hc
            exact (hp4 c (List.dropLast_subset _ hc)).2.2.2.2
          · rw [kidsF, ap6, ← hmapP]
            exact hp5'
        | none =>
          have hA : appendToPreviousE ((splitNl (rstripNl t)).dropLast.foldl
              (splitStep "strong" a) emptyRoot) ((splitNl (rstripNl t)).getLastD []) =
              ((splitNl (rstripNl t)).dropLast.foldl (splitStep "strong" a)
                emptyRoot).withText (some (orCat ((splitNl (rstripNl t)).dropLast.foldl
                  (splitStep "strong" a) emptyRoot).text
                  ((splitNl (rstripNl t)).getLastD []))) := by
            unfold appendToPreviousE
            rw [hPk]
          rw [bRun_c1, endStrong_purge_gen a t
            (((splitNl (rstripNl t)).dropLast.foldl (splitStep "strong" a)
              emptyRoot).withText (some (orCat ((splitNl (rstripNl t)).dropLast.foldl
                (splitStep "strong" a) emptyRoot).text
                ((splitNl (rstripNl t)).getLastD []))))
            hT hkf (by rw [if_pos hws]; exact hA)]
          have hP2k := toList_nil_of_lastGet_none _ hPk
          have hfl0 : (((splitNl (rstripNl t)).dropLast.filter lineKeep).map some :
              List (Option PyStr)) = [] := by
            rw [← hp5', hP2k]
            rfl
          have hlg2 : (((splitNl (rstripNl t)).dropLast.foldl (splitStep "strong" a)
              emptyRoot).withText (some (orCat ((splitNl (rstripNl t)).dropLast.foldl
                (splitStep "strong" a) emptyRoot).text
                ((splitNl (rstripNl t)).getLastD [])))).childrenL.lastGet = none := by
            rw [lastGet_eq_getLast?, childrenL_withText, ← lastGet_eq_getLast?]
            exact hPk
          rw [hlg2]
          simp only []
          rw [text_withText]
          simp only []
          simp only [Except.bind]
          have hLne : ((splitNl (rstripNl t)).getLastD []) ≠ [] := by
            intro h0
            rw [h0] at hws
            simp at hws
          have horc : orCat ((splitNl (rstripNl t)).dropLast.foldl
              (splitStep "strong" a) emptyRoot).text
              ((splitNl (rstripNl t)).getLastD []) ≠ [] := orCat_ne_nil _ _ hLne
          rw [endZt_text_write _ _ 0 horc
            (by rw [tag_withText, tag_withText]; exact hp1)
            (by rw [tl_withText, tl_withText]; exact hp2)]
          simp only [Except.bind]
          rw [close_ok _ _ _ _ _
            (by rw [tag_withTl, tag_withText, tag_withText]; exact hp1)]
          refine ⟨_, rfl, ?_⟩
          apply facts_from_kids a t _
            (by rw [tag_withTl, tag_withText, tag_withText]; exact hp1)
          · rw [childrenL_withTl, childrenL_withText, childrenL_withText, hP2k]
            intro c hc
            exact absurd hc (List.not_mem_nil c)
          · rw [childrenL_withTl, childrenL_withText, childrenL_withText, hP2k]
            intro c hc
            simp at hc
          · rw [childrenL_withTl, childrenL_withText, childrenL_withText, hP2k,
              ← hmapP, hfl0]
            rfl
      · rw [bRun_c1, endStrong_purge_gen a t
          ((splitNl (rstripNl t)).dropLast.foldl (splitStep "strong" a) emptyRoot)
          hT hkf (if_neg hws)]
        cases hPk : ((splitNl (rstripNl t)).dropLast.foldl (splitStep "strong" a)
            emptyRoot).childrenL.lastGet with
        | some prev =>
          have hkprev := hp4 prev (mem_of_lastGet _ _ hPk)
          obtain ⟨u, hu⟩ : ∃ u, prev.tl = some u := by
            rcases htl : prev.tl with _ | u
            · exfalso
              have h5 := hkprev.2.2.2.2
              rw [htl] at h5
              simp [startsNl] at h5
            · exact ⟨u, rfl⟩
          have hune : u ≠ [] := by
            apply ne_nil_of_startsNl
            have h5 := hkprev.2.2.2.2
            rw [hu] at h5
            simpa using h5
          have hP2ne : ((splitNl (rstripNl t)).dropLast.foldl (splitStep "strong" a)
              emptyRoot).childrenL.toList ≠ [] := toList_ne_nil_of_lastGet _ _ hPk
          have hdecomp := lastGet_decomp _ _ hPk
          simp only []
          rw [hu]
          simp only []
          simp only [Except.bind]
          have kids2 : (((splitNl (rstripNl t)).dropLast.foldl (splitStep "strong" a)
              emptyRoot).withChildren (((splitNl (rstripNl t)).dropLast.foldl
                (splitStep "strong" a) emptyRoot).childrenL.setLast
                (prev.withTl none))).childrenL.toList =
              ((splitNl (rstripNl t)).dropLast.foldl (splitStep "strong" a)
                emptyRoot).childrenL.toList.dropLast ++ [prev.withTl none] := by
            rw [childrenL_withChildren, toList_setLast,
              if_neg (by simp [List.isEmpty_iff, hP2ne])]
          rw [endZt_tail_write _ (prev.withTl none) u 0 hune
            (by rw [tag_withChildren]; exact hp1)
            (by rw [lastGet_eq_getLast?, kids2, List.getLast?_concat])
            (by rw [tag_withTl]; exact hkprev.1) (tl_withTl _ _)]
          simp only [Except.bind]
          rw [close_ok _ _ _ _ _ (by rw [tag_withChildren, tag_withChildren]; exact hp1)]
          refine ⟨_, rfl, ?_⟩
          have kidsF : ((((splitNl (rstripNl t)).dropLast.foldl (splitStep "strong" a)
              emptyRoot).withChildren (((splitNl (rstripNl t)).dropLast.foldl
                (splitStep "strong" a) emptyRoot).childrenL.setLast
                (prev.withTl none))).withChildren
              ((((splitNl (rstripNl t)).dropLast.foldl (splitStep "strong" a)
                emptyRoot).withChildren (((splitNl (rstripNl t)).dropLast.foldl
                  (splitStep "strong" a) emptyRoot).childrenL.setLast
                  (prev.withTl none))).childrenL.setLast
                ((prev.withTl none).withTl (some u)))).childrenL.toList =
              ((splitNl (rstripNl t)).dropLast.foldl (splitStep "strong" a)
                emptyRoot).childrenL.toList := by
            rw [childrenL_withChildren, toList_setLast, kids2,
              if_neg (by simp)]
            rw [List.dropLast_concat, withTl_withTl]
            rw [show prev.withTl (some u) = prev from by rw [← hu]; exact withTl_self prev]
            exact hdecomp.symm
          apply facts_from_kids a t _
            (by rw [tag_withChildren, tag_withChildren]; exact hp1)
          · rw [kidsF]
            intro c hc
            obtain ⟨k1, k2, k3, ⟨l0, hl0, hk0, hn0⟩, k5⟩ := hp4 c hc
            exact ⟨k1, k2, k3, l0, hl0, hn0⟩
          · rw [kidsF]
            intro c hc
            exact (hp4 c (List.dropLast_subset _ hc)).2.2.2.2
          · rw [kidsF, ← hmapP]
            exact hp5'
        | none =>
          have hP2k : ((splitNl (rstripNl t)).dropLast.foldl (splitStep "strong" a)
              emptyRoot).childrenL.toList = [] := toList_nil_of_lastGet_none _ hPk
          have hfl0 : (((splitNl (rstripNl t)).dropLast.filter lineKeep).map some :
              List (Option PyStr)) = [] := by
            rw [← hp5', hP2k]
            rfl
          simp only []
          rcases hp3 with htx | ⟨x, htx, hxne⟩
          · rw [htx]
            simp only []
            by_cases hz : trailNl t = 0
            · rw [if_pos hz]
              simp only [Except.bind]
              rw [endZt_top_empty _ 0 le_rfl hp1]
              simp only [Except.bind]
              rw [close_ok _ _ _ _ _ hp1]
              refine ⟨_, rfl, ?_⟩
              apply facts_from_kids a t _ hp1
              · rw [hP2k]
                intro c hc
                exact absurd hc (List.not_mem_nil c)
              · rw [hP2k]
                intro c hc
                simp at hc
              · rw [hP2k, ← hmapP, hfl0]
                rfl
            · rw [if_neg hz]
              simp only [Except.bind]
              rw [endZt_text_write _ (nlRep (trailNl t)) 0 (nlRep_ne_nil _ hz) hp1 hp2]
              simp only [Except.bind]
              rw [close_ok _ _ _ _ _ (by rw [tag_withTl]; exact hp1)]
              refine ⟨_, rfl, ?_⟩
              apply facts_from_kids a t _ (by rw [tag_withTl]; exact hp1)
              · rw [childrenL_withTl, hP2k]
                intro c hc
                exact absurd hc (List.not_mem_nil c)
              · rw [childrenL_withTl, hP2k]
                intro c hc
                simp at hc
              · rw [childrenL_withTl, hP2k, ← hmapP, hfl0]
                rfl
          · rw [htx]
            simp only []
            simp only [Except.bind]
            rw [endZt_text_write _ x 0 hxne (by rw [tag_withText]; exact hp1)
              (by rw [tl_withText]; exact hp2)]
            simp only [Except.bind]
            rw [close_ok _ _ _ _ _ (by rw [tag_withTl, tag_withText]; exact hp1)]
            refine ⟨_, rfl, ?_⟩
            apply facts_from_kids a t _ (by rw [tag_withTl, tag_withText]; exact hp1)
            · rw [childrenL_withTl, childrenL_withText, hP2k]
              intro c hc
              exact absurd hc (List.not_mem_nil c)
            · rw [childrenL_withTl, childrenL_withText, hP2k]
              intro c hc
              simp at hc
            · rw [childrenL_withTl, childrenL_withText, hP2k, ← hmapP, hfl0]
              rfl
